import Mathlib

/-!
Verification of the indexed compact slot store
(`Compact_container_with_index_2.h`, Combinatorial_map package) and of the
ray/plane squared-distance delegation (`squared_distance_Ray_3_Plane_3.h`,
Distance_3 package).

The container is embedded shallowly: the C++ object state
(`capacity_`, `size_`, `block_size`, `free_list`, `all_items`) becomes a
Lean structure, the buffer becomes a `List` of slots, and the bit-squatted
tag word of each element becomes a `Nat` manipulated with the same bitwise
operations (`&&&`, `|||`, `<<<`, `>>>`) the source uses.  `size_type` is a
64-bit unsigned integer in the source; indices are kept as unbounded `Nat`
and the theorems carry the hypothesis that capacities stay below `2 ^ 63`
(the largest index representable in the 63 value bits of a tag word),
which is the envelope inside which the 64-bit code computes exactly.
-/

namespace CGALStore

/-- `sizeof(size_type)*8 - 1` for the 64-bit `size_type` of the source. -/
def nbbits_size_type_m1 : Nat := 63

/-- `((size_type)-1)-(((size_type)-1)/2)`: the most significant bit of a
64-bit word, i.e. `2 ^ 63`. -/
def mask_type : Nat := 2 ^ 63

/-- `~mask_type` on the 64-bit `size_type`: all bits but the MSB. -/
def not_mask_type : Nat := 2 ^ 64 - 1 - mask_type

/-- `enum Type { USED = 0, FREE = 1 }` (value `USED`). -/
def USED : Nat := 0

/-- `enum Type { USED = 0, FREE = 1 }` (value `FREE`). -/
def FREE : Nat := 1

/-- One stored `T`: `word` is the tag word exposed through
`Compact_container_with_index_traits` (`Traits::size_t(e)`), `data` stands
for the rest of the client payload. -/
structure Elem where
  word : Nat
  data : Nat
deriving DecidableEq

instance : Inhabited Elem := ⟨⟨0, 0⟩⟩

/-- `static_type(e)`: `(Traits::size_t(e) & mask_type) >> nbbits_size_type_m1`. -/
def static_type (e : Elem) : Nat :=
  (e.word &&& mask_type) >>> nbbits_size_type_m1

/-- `static_set_type(e, t)`:
`Traits::size_t(e) &= (~mask_type | (t << nbbits_size_type_m1))`. -/
def static_set_type (e : Elem) (t : Nat) : Elem :=
  { e with word := e.word &&& (not_mask_type ||| (t <<< nbbits_size_type_m1)) }

/-- `static_get_val(e)`: `Traits::size_t(e) & ~mask_type`. -/
def static_get_val (e : Elem) : Nat :=
  e.word &&& not_mask_type

/-- `static_set_val(e, v, t)`: `Traits::size_t(e) = v | (t << nbbits_size_type_m1)`. -/
def static_set_val (e : Elem) (v t : Nat) : Elem :=
  { e with word := v ||| (t <<< nbbits_size_type_m1) }

/-- The increment policy (`Increment_policy` template argument): its
`first_block_size` constant and its `increase_size` hook, which maps the
current `block_size` to the next one. -/
structure Increment_policy where
  first_block_size : Nat
  increase_size : Nat → Nat

/-- Validity envelope of the policy: positive block sizes and a first block
inside the index range. -/
def Increment_policy.ok (p : Increment_policy) : Prop :=
  0 < p.first_block_size ∧ p.first_block_size < mask_type ∧ ∀ n, 0 < p.increase_size n

/-- State of a `Compact_container_with_index_2` object: the data members of
the C++ class.  `all_items` models the malloc/realloc buffer; its length
always equals `capacity_` on states reachable by the public interface. -/
structure Compact_container_with_index_2 where
  capacity_ : Nat
  size_ : Nat
  block_size : Nat
  free_list : Nat
  all_items : List Elem
deriving DecidableEq

namespace Compact_container_with_index_2

/-- `operator[](i)`: direct indexing into the buffer.  The C++ code asserts
`all_items != NULL && i < capacity_`; out-of-range access is undefined and
is modelled by a default element. -/
def get (c : Compact_container_with_index_2) (i : Nat) : Elem :=
  c.all_items.getD i default

/-- `type(e)`: tag of slot `e`. -/
def type (c : Compact_container_with_index_2) (i : Nat) : Nat :=
  static_type (c.get i)

/-- `is_used(i)`: `type(i) == USED`. -/
def is_used (c : Compact_container_with_index_2) (i : Nat) : Bool :=
  c.type i == USED

/-- `get_val(e)`: value bits of slot `e`. -/
def get_val (c : Compact_container_with_index_2) (i : Nat) : Nat :=
  static_get_val (c.get i)

/-- `set_val(e, v, t)`. -/
def set_val (c : Compact_container_with_index_2) (e v t : Nat) :
    Compact_container_with_index_2 :=
  { c with all_items := c.all_items.set e (static_set_val (c.get e) v t) }

/-- `put_on_free_list(x)`: `set_val(x, free_list, FREE); free_list = x;`. -/
def put_on_free_list (c : Compact_container_with_index_2) (x : Nat) :
    Compact_container_with_index_2 :=
  let c1 := c.set_val x c.free_list FREE
  { c1 with free_list := x }

/-- Helper for the descending loop of `allocate_new_block`: push
`oldcap + n, oldcap + n - 1, ..., oldcap + 1` on the free list. -/
def put_free_count (c : Compact_container_with_index_2) (oldcap : Nat) :
    Nat → Compact_container_with_index_2
  | 0 => c
  | n + 1 => put_free_count (c.put_on_free_list (oldcap + (n + 1))) oldcap n

/-- The descending loop of `allocate_new_block`:
`for (index = capacity_-1; index > oldcapacity; --index) put_on_free_list(index);`. -/
def put_free_desc (c : Compact_container_with_index_2) (oldcap index : Nat) :
    Compact_container_with_index_2 :=
  put_free_count c oldcap (index - oldcap)

/-- The `capacity_ += block_size; all_items = malloc/realloc(capacity_*sizeof(T))`
step of `allocate_new_block` (lines 633-639): the old contents are preserved
and `block_size` uninitialised slots are appended (modelled by default
elements; every one of them is overwritten before being read). -/
def grow_buffer (c : Compact_container_with_index_2) : Compact_container_with_index_2 :=
  { c with capacity_ := c.capacity_ + c.block_size,
           all_items := c.all_items ++ List.replicate c.block_size default }

/-- `allocate_new_block()`: grow the buffer, push the new indices on the
free list from `capacity_-1` down to `oldcapacity+1`, then push
`oldcapacity`, and let the policy increase `block_size`. -/
def allocate_new_block (p : Increment_policy) (c : Compact_container_with_index_2) :
    Compact_container_with_index_2 :=
  let oldcapacity := c.capacity_
  let c1 := c.grow_buffer
  let c2 := put_free_desc c1 oldcapacity (c1.capacity_ - 1)
  let c3 := c2.put_on_free_list oldcapacity
  { c3 with block_size := p.increase_size c3.block_size }

/-- Body of `emplace`/`insert` after the possible block allocation:
take the free-list head, mark it `USED`, read the next free index from its
value bits, construct the element in place, bump `size_`, return the index. -/
def emplace_aux (c : Compact_container_with_index_2) (t : Elem) :
    Compact_container_with_index_2 × Nat :=
  let ret := c.free_list
  let e := c.get c.free_list
  let e1 := static_set_type e USED
  let c1 := { c with all_items := c.all_items.set c.free_list e1 }
  let fl := static_get_val e1
  ({ c1 with all_items := c1.all_items.set ret t, free_list := fl,
             size_ := c1.size_ + 1 }, ret)

/-- `emplace(args...)`: grow if the free list is empty, then construct in the
slot popped from the free list.  The constructed value is the argument `t`. -/
def emplace (p : Increment_policy) (c : Compact_container_with_index_2) (t : Elem) :
    Compact_container_with_index_2 × Nat :=
  (if c.free_list = 0 then c.allocate_new_block p else c).emplace_aux t

/-- `insert(const T&)`: same body as `emplace`, with
`alloc.construct(&e, t)` in place of placement new. -/
def insert (p : Increment_policy) (c : Compact_container_with_index_2) (t : Elem) :
    Compact_container_with_index_2 × Nat :=
  c.emplace p t

/-- `erase(x)` (precondition `type(x) == USED`): destroy the element, zero
its memory (`std::memset(&e, 0, sizeof(T))`), put the slot on the free list,
decrement `size_`. -/
def erase (c : Compact_container_with_index_2) (x : Nat) :
    Compact_container_with_index_2 :=
  let c1 : Compact_container_with_index_2 :=
    { c with all_items := c.all_items.set x default }
  let c2 := c1.put_on_free_list x
  { c2 with size_ := c2.size_ - 1 }

/-- `init()`: reset the bookkeeping to an empty buffer, then `emplace()` a
default-constructed element (this retires index 0) and reset `size_` to 0. -/
def init (p : Increment_policy) : Compact_container_with_index_2 :=
  let c0 : Compact_container_with_index_2 :=
    { capacity_ := 0, size_ := 0, block_size := p.first_block_size,
      free_list := 0, all_items := [] }
  let r := c0.emplace p default
  { r.1 with size_ := 0 }

/-- `clear()`: destroy every used slot, `free(all_items)`, then `init()`.
The resulting state is exactly the state produced by `init()`. -/
def clear (p : Increment_policy) (_c : Compact_container_with_index_2) :
    Compact_container_with_index_2 :=
  init p

/-- `size()`: returns `size_`. -/
def size (c : Compact_container_with_index_2) : Nat := c.size_

/-- `capacity()`: returns `capacity_`. -/
def capacity (c : Compact_container_with_index_2) : Nat := c.capacity_

/-- `empty()`: `size_ == 0`. -/
def empty (c : Compact_container_with_index_2) : Bool := c.size_ == 0

/-- `reserve(n)`: the source returns immediately when `capacity_ >= n`, and
the growth code for the other case is commented out (a `// TODO` block,
lines 487-511), so the function falls through and changes nothing. -/
def reserve (c : Compact_container_with_index_2) (n : Nat) :
    Compact_container_with_index_2 :=
  if c.capacity_ ≥ n then c else c

end Compact_container_with_index_2

/-! ### Bit-level bridge lemmas

The tag-word operations reduce to `% 2 ^ 63` on the value bits and
`testBit 63` on the type bit. -/

theorem not_mask_type_eq : not_mask_type = 2 ^ 63 - 1 := by
  unfold not_mask_type mask_type
  norm_num

theorem and_mask_eq (w : Nat) : w &&& mask_type = (w.testBit 63).toNat * 2 ^ 63 := by
  unfold mask_type
  apply Nat.eq_of_testBit_eq
  intro i
  cases h : w.testBit 63 with
  | false =>
    simp only [Nat.testBit_and, Nat.testBit_two_pow, Bool.toNat_false, Nat.zero_mul,
      Nat.zero_testBit]
    by_cases hi : (63 : Nat) = i
    · subst hi; simp [h]
    · simp [hi]
  | true =>
    simp only [Nat.testBit_and, Nat.testBit_two_pow, Bool.toNat_true, Nat.one_mul]
    by_cases hi : (63 : Nat) = i
    · subst hi; simp [h]
    · simp [hi, Nat.testBit_two_pow]

theorem static_type_eq (e : Elem) : static_type e = (e.word.testBit 63).toNat := by
  unfold static_type nbbits_size_type_m1
  rw [and_mask_eq, Nat.shiftRight_eq_div_pow]
  exact Nat.mul_div_cancel _ (Nat.pos_pow_of_pos 63 (by norm_num))

theorem static_get_val_eq (e : Elem) : static_get_val e = e.word % 2 ^ 63 := by
  unfold static_get_val
  rw [not_mask_type_eq, Nat.and_pow_two_sub_one_eq_mod]

theorem static_get_val_lt (e : Elem) : static_get_val e < mask_type := by
  rw [static_get_val_eq]
  exact Nat.mod_lt _ (Nat.pos_pow_of_pos 63 (by norm_num))

theorem static_type_of_lt {e : Elem} (h : e.word < mask_type) : static_type e = USED := by
  rw [static_type_eq, Nat.testBit_lt_two_pow h]
  rfl

theorem static_type_cases (e : Elem) : static_type e = USED ∨ static_type e = FREE := by
  rw [static_type_eq]
  cases e.word.testBit 63
  · exact Or.inl rfl
  · exact Or.inr rfl

theorem static_set_val_free_word (e : Elem) (v : Nat) :
    (static_set_val e v FREE).word = v ||| 2 ^ 63 := by
  unfold static_set_val FREE nbbits_size_type_m1
  simp [Nat.shiftLeft_eq]

theorem static_set_val_data (e : Elem) (v t : Nat) :
    (static_set_val e v t).data = e.data := rfl

theorem static_type_set_val_free (e : Elem) (v : Nat) :
    static_type (static_set_val e v FREE) = FREE := by
  rw [static_type_eq, static_set_val_free_word, Nat.testBit_or, Nat.testBit_two_pow_self,
    Bool.or_true]
  rfl

theorem static_get_val_set_val_free (e : Elem) {v : Nat} (h : v < mask_type) :
    static_get_val (static_set_val e v FREE) = v := by
  rw [static_get_val_eq, static_set_val_free_word]
  apply Nat.eq_of_testBit_eq
  intro i
  rw [Nat.testBit_mod_two_pow]
  by_cases hi : i < 63
  · have h2 : (2 ^ 63 : Nat).testBit i = false :=
      Nat.testBit_two_pow_of_ne (Nat.ne_of_gt hi)
    rw [Nat.testBit_or, h2, Bool.or_false]
    simp [hi]
  · have hv : v.testBit i = false := by
      apply Nat.testBit_lt_two_pow
      calc v < 2 ^ 63 := h
      _ ≤ 2 ^ i := Nat.pow_le_pow_right (by norm_num) (Nat.le_of_not_lt hi)
    simp [hi, hv]

theorem static_set_type_used_word (e : Elem) :
    (static_set_type e USED).word = e.word % 2 ^ 63 := by
  show e.word &&& (not_mask_type ||| (USED <<< nbbits_size_type_m1)) = e.word % 2 ^ 63
  rw [not_mask_type_eq]
  show e.word &&& (2 ^ 63 - 1 ||| 0 <<< 63) = e.word % 2 ^ 63
  rw [Nat.zero_shiftLeft, Nat.or_zero, Nat.and_pow_two_sub_one_eq_mod]

theorem static_set_type_data (e : Elem) (t : Nat) :
    (static_set_type e t).data = e.data := rfl

theorem static_type_set_type_used (e : Elem) :
    static_type (static_set_type e USED) = USED := by
  rw [static_type_eq, static_set_type_used_word]
  have : (e.word % 2 ^ 63).testBit 63 = false := by
    rw [Nat.testBit_mod_two_pow]
    simp
  rw [this]
  rfl

theorem static_get_val_set_type_used (e : Elem) :
    static_get_val (static_set_type e USED) = static_get_val e := by
  rw [static_get_val_eq, static_get_val_eq, static_set_type_used_word]
  exact Nat.mod_mod_of_dvd _ dvd_rfl

/-- Short alias for the container type. -/
abbrev CC := Compact_container_with_index_2

/-! ### Buffer access lemmas -/

theorem getD_set_self (l : List Elem) {i : Nat} (e : Elem) (h : i < l.length) :
    (l.set i e).getD i default = e := by
  simp [List.getD_eq_getElem?_getD, List.getElem?_set_self h]

theorem getD_set_ne (l : List Elem) {i j : Nat} (h : i ≠ j) (e : Elem) :
    (l.set i e).getD j default = l.getD j default := by
  simp [List.getD_eq_getElem?_getD, List.getElem?_set_ne h]

theorem getD_set_default (l : List Elem) (i : Nat) :
    (l.set i (default : Elem)).getD i default = default := by
  by_cases h : i < l.length
  · exact getD_set_self l default h
  · rw [List.set_eq_of_length_le (Nat.le_of_not_lt (by simpa using h))]
    simp [List.getD_eq_getElem?_getD, List.getElem?_eq_none (Nat.le_of_not_lt (by simpa using h))]

theorem getD_append_left {l1 l2 : List Elem} {j : Nat} (h : j < l1.length) :
    (l1 ++ l2).getD j default = l1.getD j default := by
  simp [List.getD_eq_getElem?_getD, List.getElem?_append_left h]

theorem getD_append_replicate_default {l1 : List Elem} {j n : Nat} (h : l1.length ≤ j) :
    (l1 ++ List.replicate n (default : Elem)).getD j default = default := by
  rw [List.getD_eq_getElem?_getD, List.getElem?_append_right h]
  by_cases h2 : j - l1.length < n
  · simp [List.getElem?_replicate, h2]
  · simp [List.getElem?_replicate, h2]

namespace Compact_container_with_index_2

/-! ### Characterisation of the primitive operations -/

theorem get_zero_default : (default : Elem).word < mask_type := by
  show (0 : Nat) < mask_type
  unfold mask_type
  positivity

theorem put_on_free_list_eq (c : CC) (x : Nat) :
    c.put_on_free_list x =
      { c with all_items := c.all_items.set x (static_set_val (c.get x) c.free_list FREE),
               free_list := x } := rfl

theorem emplace_aux_eq (c : CC) (t : Elem) :
    c.emplace_aux t =
      ({ c with all_items := c.all_items.set c.free_list t,
                free_list := c.get_val c.free_list,
                size_ := c.size_ + 1 }, c.free_list) := by
  unfold emplace_aux
  simp only [List.set_set, static_get_val_set_type_used]
  rfl

theorem erase_eq (c : CC) (x : Nat) :
    c.erase x =
      { c with all_items := c.all_items.set x (static_set_val default c.free_list FREE),
               free_list := x, size_ := c.size_ - 1 } := by
  unfold erase put_on_free_list set_val get
  simp only [List.set_set, getD_set_default]

theorem emplace_eq_pop (p : Increment_policy) (c : CC) (t : Elem) (h : ¬c.free_list = 0) :
    c.emplace p t = c.emplace_aux t := by
  unfold emplace
  rw [if_neg h]

theorem emplace_eq_grow (p : Increment_policy) (c : CC) (t : Elem) (h : c.free_list = 0) :
    c.emplace p t = (c.allocate_new_block p).emplace_aux t := by
  unfold emplace
  rw [if_pos h]

theorem put_free_desc_step (c : CC) (oldcap index : Nat) (h : oldcap < index) :
    c.put_free_desc oldcap index =
      (c.put_on_free_list index).put_free_desc oldcap (index - 1) := by
  have h1 : index - oldcap = (index - 1 - oldcap) + 1 := by omega
  have h2 : oldcap + (index - 1 - oldcap + 1) = index := by omega
  show put_free_count c oldcap (index - oldcap) =
    put_free_count (c.put_on_free_list index) oldcap (index - 1 - oldcap)
  rw [h1]
  show put_free_count (c.put_on_free_list (oldcap + (index - 1 - oldcap + 1))) oldcap
    (index - 1 - oldcap) = _
  rw [h2]

theorem put_free_desc_stop (c : CC) (oldcap index : Nat) (h : ¬oldcap < index) :
    c.put_free_desc oldcap index = c := by
  show put_free_count c oldcap (index - oldcap) = c
  rw [show index - oldcap = 0 by omega]
  rfl

theorem put_free_desc_spec (oldcap : Nat) (n : Nat) (c : CC)
    (hlen : oldcap + n < c.all_items.length) :
    (c.put_free_desc oldcap (oldcap + n)).capacity_ = c.capacity_ ∧
    (c.put_free_desc oldcap (oldcap + n)).size_ = c.size_ ∧
    (c.put_free_desc oldcap (oldcap + n)).block_size = c.block_size ∧
    (c.put_free_desc oldcap (oldcap + n)).all_items.length = c.all_items.length ∧
    (c.put_free_desc oldcap (oldcap + n)).free_list =
      (if 0 < n then oldcap + 1 else c.free_list) ∧
    (∀ j, j ≤ oldcap ∨ oldcap + n < j →
      (c.put_free_desc oldcap (oldcap + n)).get j = c.get j) ∧
    (∀ j, oldcap < j → j ≤ oldcap + n →
      (c.put_free_desc oldcap (oldcap + n)).get j =
        static_set_val (c.get j) (if j = oldcap + n then c.free_list else j + 1) FREE) := by
  induction n generalizing c with
  | zero =>
    rw [put_free_desc_stop c oldcap (oldcap + 0) (by omega)]
    refine ⟨rfl, rfl, rfl, rfl, by simp, fun j _ => rfl, fun j h1 h2 => by omega⟩
  | succ n ih =>
    have hstep : c.put_free_desc oldcap (oldcap + (n + 1)) =
        (c.put_on_free_list (oldcap + (n + 1))).put_free_desc oldcap (oldcap + n) := by
      rw [put_free_desc_step c oldcap (oldcap + (n + 1)) (by omega)]
      congr 1
    set c1 := c.put_on_free_list (oldcap + (n + 1)) with hc1
    have hc1len : c1.all_items.length = c.all_items.length := by
      rw [hc1, put_on_free_list_eq]
      simp
    have hc1cap : c1.capacity_ = c.capacity_ := rfl
    have hc1size : c1.size_ = c.size_ := rfl
    have hc1bs : c1.block_size = c.block_size := rfl
    have hc1fl : c1.free_list = oldcap + (n + 1) := rfl
    have hc1get_ne : ∀ j, j ≠ oldcap + (n + 1) → c1.get j = c.get j := by
      intro j hj
      rw [hc1, put_on_free_list_eq]
      exact getD_set_ne c.all_items (fun h => hj h.symm) _
    have hc1get_eq : c1.get (oldcap + (n + 1)) =
        static_set_val (c.get (oldcap + (n + 1))) c.free_list FREE := by
      rw [hc1, put_on_free_list_eq]
      exact getD_set_self c.all_items _ hlen
    obtain ⟨i1, i2, i3, i4, i5, i6, i7⟩ := ih c1 (by omega)
    rw [hstep]
    refine ⟨by rw [i1, hc1cap], by rw [i2, hc1size], by rw [i3, hc1bs],
      by rw [i4, hc1len], ?_, ?_, ?_⟩
    · rw [i5]
      by_cases hn : 0 < n
      · simp [hn]
      · have hn0 : n = 0 := by omega
        subst hn0
        simp [hc1fl]
    · intro j hj
      rw [i6 j (by omega), hc1get_ne j (by omega)]
    · intro j h1 h2
      by_cases hj : j ≤ oldcap + n
      · rw [i7 j h1 hj, hc1get_ne j (by omega)]
        by_cases hje : j = oldcap + n
        · rw [if_pos hje, hc1fl, if_neg (by omega)]
          congr 1
          omega
        · rw [if_neg hje, if_neg (by omega)]
      · have hje : j = oldcap + (n + 1) := by omega
        subst hje
        rw [i6 _ (Or.inr (by omega)), hc1get_eq, if_pos rfl]

theorem grow_buffer_length (c : CC) (hlen : c.all_items.length = c.capacity_) :
    c.grow_buffer.all_items.length = c.capacity_ + c.block_size := by
  unfold grow_buffer
  simp [hlen]

theorem grow_buffer_get_old (c : CC) (hlen : c.all_items.length = c.capacity_)
    {j : Nat} (hj : j < c.capacity_) : c.grow_buffer.get j = c.get j := by
  unfold grow_buffer get
  exact getD_append_left (by rw [hlen]; exact hj)

theorem grow_buffer_get_new (c : CC) (hlen : c.all_items.length = c.capacity_)
    {j : Nat} (hj : c.capacity_ ≤ j) : c.grow_buffer.get j = default := by
  unfold grow_buffer get
  exact getD_append_replicate_default (by rw [hlen]; exact hj)

theorem allocate_new_block_spec (p : Increment_policy) (c : CC)
    (hlen : c.all_items.length = c.capacity_) (hbs : 0 < c.block_size) :
    (c.allocate_new_block p).capacity_ = c.capacity_ + c.block_size ∧
    (c.allocate_new_block p).size_ = c.size_ ∧
    (c.allocate_new_block p).block_size = p.increase_size c.block_size ∧
    (c.allocate_new_block p).all_items.length = c.capacity_ + c.block_size ∧
    (c.allocate_new_block p).free_list = c.capacity_ ∧
    (∀ j, j < c.capacity_ → (c.allocate_new_block p).get j = c.get j) ∧
    (∀ j, c.capacity_ ≤ j → j < c.capacity_ + c.block_size →
      (c.allocate_new_block p).get j =
        static_set_val default
          (if j + 1 < c.capacity_ + c.block_size then j + 1 else c.free_list) FREE) := by
  have hglen : c.grow_buffer.all_items.length = c.capacity_ + c.block_size :=
    grow_buffer_length c hlen
  obtain ⟨p1, p2, p3, p4, p5, p6, p7⟩ :=
    put_free_desc_spec c.capacity_ (c.block_size - 1) c.grow_buffer (by omega)
  have hidx : c.capacity_ + (c.block_size - 1) = c.grow_buffer.capacity_ - 1 := by
    show _ = c.capacity_ + c.block_size - 1
    omega
  rw [hidx] at p1 p2 p3 p4 p5 p6 p7
  have hc2len : (put_free_desc c.grow_buffer c.capacity_
      (c.grow_buffer.capacity_ - 1)).all_items.length = c.capacity_ + c.block_size := by
    rw [p4, hglen]
  have hc2get_cap : (put_free_desc c.grow_buffer c.capacity_
      (c.grow_buffer.capacity_ - 1)).get c.capacity_ = default := by
    rw [p6 c.capacity_ (Or.inl (Nat.le_refl _))]
    exact grow_buffer_get_new c hlen (Nat.le_refl _)
  refine ⟨?_, ?_, ?_, ?_, rfl, ?_, ?_⟩
  · show (put_free_desc c.grow_buffer c.capacity_
        (c.grow_buffer.capacity_ - 1)).capacity_ = c.capacity_ + c.block_size
    rw [p1]
    rfl
  · show (put_free_desc c.grow_buffer c.capacity_
        (c.grow_buffer.capacity_ - 1)).size_ = c.size_
    rw [p2]
    rfl
  · show p.increase_size (put_free_desc c.grow_buffer c.capacity_
        (c.grow_buffer.capacity_ - 1)).block_size = p.increase_size c.block_size
    rw [p3]
    rfl
  · show ((put_free_desc c.grow_buffer c.capacity_
        (c.grow_buffer.capacity_ - 1)).all_items.set c.capacity_ _).length =
      c.capacity_ + c.block_size
    rw [List.length_set, hc2len]
  · intro j hj
    show ((put_free_desc c.grow_buffer c.capacity_
        (c.grow_buffer.capacity_ - 1)).all_items.set c.capacity_ _).getD j default = c.get j
    rw [getD_set_ne _ (by omega) _]
    have h6 := p6 j (Or.inl (Nat.le_of_lt hj))
    rw [show ((put_free_desc c.grow_buffer c.capacity_
        (c.grow_buffer.capacity_ - 1)).all_items.getD j default) =
      (put_free_desc c.grow_buffer c.capacity_
        (c.grow_buffer.capacity_ - 1)).get j from rfl, h6]
    exact grow_buffer_get_old c hlen hj
  · intro j hj1 hj2
    by_cases hje : j = c.capacity_
    · subst hje
      show ((put_free_desc c.grow_buffer c.capacity_
          (c.grow_buffer.capacity_ - 1)).all_items.set c.capacity_
          (static_set_val ((put_free_desc c.grow_buffer c.capacity_
            (c.grow_buffer.capacity_ - 1)).get c.capacity_)
            (put_free_desc c.grow_buffer c.capacity_
              (c.grow_buffer.capacity_ - 1)).free_list FREE)).getD c.capacity_ default = _
      rw [getD_set_self _ _ (by rw [hc2len]; omega), hc2get_cap, p5]
      by_cases hb1 : 0 < c.block_size - 1
      · rw [if_pos hb1, if_pos (by omega)]
      · rw [if_neg hb1, if_neg (by omega)]
        rfl
    · show ((put_free_desc c.grow_buffer c.capacity_
          (c.grow_buffer.capacity_ - 1)).all_items.set c.capacity_ _).getD j default = _
      rw [getD_set_ne _ (fun h => hje h.symm) _]
      have hj3 : c.capacity_ < j := by omega
      have h7 := p7 j hj3 (by omega)
      rw [show ((put_free_desc c.grow_buffer c.capacity_
          (c.grow_buffer.capacity_ - 1)).all_items.getD j default) =
        (put_free_desc c.grow_buffer c.capacity_
          (c.grow_buffer.capacity_ - 1)).get j from rfl, h7,
        grow_buffer_get_new c hlen (Nat.le_of_lt hj3)]
      rw [← hidx]
      by_cases hje2 : j = c.capacity_ + (c.block_size - 1)
      · rw [if_pos hje2, if_neg (by omega)]
        rfl
      · rw [if_neg hje2, if_pos (by omega)]

end Compact_container_with_index_2

/-! ### The free-list chain and the store invariant -/

open Compact_container_with_index_2 in
/-- `FreeChain c h l`: starting from head index `h` and repeatedly following
the value bits of the tag word, one visits exactly the indices of `l` (in
order) and reaches the terminator 0. -/
inductive FreeChain (c : CC) : Nat → List Nat → Prop where
  | nil : FreeChain c 0 []
  | cons {h : Nat} {l : List Nat} (h0 : h ≠ 0) (hcap : h < c.capacity_)
      (hfree : c.type h = FREE) (rest : FreeChain c (c.get_val h) l) :
      FreeChain c h (h :: l)

namespace Compact_container_with_index_2

theorem freeChain_cons {c : CC} {h : Nat} {l : List Nat} (h0 : h ≠ 0)
    (hcap : h < c.capacity_) (hfree : c.type h = FREE)
    (rest : FreeChain c (c.get_val h) l) : FreeChain c h (h :: l) :=
  FreeChain.cons h0 hcap hfree rest

theorem freeChain_zero {c : CC} {l : List Nat} (hfc : FreeChain c 0 l) : l = [] := by
  cases hfc with
  | nil => rfl
  | cons h0 hcap hfree rest => exact absurd rfl h0

theorem freeChain_cons_inv {c : CC} {h : Nat} {x : Nat} {l : List Nat}
    (hfc : FreeChain c h (x :: l)) :
    x = h ∧ h ≠ 0 ∧ h < c.capacity_ ∧ c.type h = FREE ∧ FreeChain c (c.get_val h) l := by
  cases hfc with
  | cons h0 hcap hfree rest => exact ⟨rfl, h0, hcap, hfree, rest⟩

theorem freeChain_head {c : CC} {h : Nat} {l : List Nat} (hfc : FreeChain c h l) :
    h = 0 ∨ (h ≠ 0 ∧ h < c.capacity_) := by
  cases hfc with
  | nil => exact Or.inl rfl
  | cons h0 hcap hfree rest => exact Or.inr ⟨h0, hcap⟩

theorem freeChain_mem {c : CC} {h : Nat} {l : List Nat} (hfc : FreeChain c h l) :
    ∀ x ∈ l, x ≠ 0 ∧ x < c.capacity_ ∧ c.type x = FREE := by
  induction hfc with
  | nil => intro x hx; cases hx
  | cons h0 hcap hfree rest ih =>
    intro x hx
    rcases List.mem_cons.mp hx with h1 | h2
    · subst h1; exact ⟨h0, hcap, hfree⟩
    · exact ih x h2

theorem freeChain_unique {c : CC} {h : Nat} {l1 : List Nat} (hfc1 : FreeChain c h l1) :
    ∀ {l2 : List Nat}, FreeChain c h l2 → l1 = l2 := by
  induction hfc1 with
  | nil =>
    intro l2 hfc2
    exact (freeChain_zero hfc2).symm
  | cons h0 hcap hfree rest ih =>
    intro l2 hfc2
    cases hfc2 with
    | nil => exact absurd rfl h0
    | cons h0' hcap' hfree' rest' =>
      rw [ih rest']

theorem freeChain_congr {c c' : CC} {h : Nat} {l : List Nat}
    (hcap : c.capacity_ ≤ c'.capacity_) (hget : ∀ x ∈ l, c'.get x = c.get x)
    (hfc : FreeChain c h l) : FreeChain c' h l := by
  induction hfc with
  | nil => exact FreeChain.nil
  | cons h0 hcapx hfree rest ih =>
    rename_i hd tl
    have hgethd : c'.get hd = c.get hd := hget hd (List.mem_cons_self hd tl)
    have h1 : c'.type hd = FREE := by
      unfold type
      rw [hgethd]
      exact hfree
    have h2 : c'.get_val hd = c.get_val hd := by
      unfold get_val
      rw [hgethd]
    refine freeChain_cons h0 (Nat.lt_of_lt_of_le hcapx hcap) h1 ?_
    rw [h2]
    exact ih fun x hx => hget x (List.mem_cons_of_mem hd hx)

/-- Number of used (live) user slots: indices in `[1, capacity_)` whose tag
is `USED`. -/
def usedCount (c : CC) : Nat :=
  ((Finset.range c.capacity_).filter (fun i => 0 < i ∧ c.type i = USED)).card

/-- The store invariant: the buffer is committed up to `capacity_`, index 0
is retired as `USED`, the free list is an exact duplicate-free enumeration
of the `FREE` indices, `size_` counts the used user slots, and the
quantities stay inside the 63-bit index range of the tag word. -/
structure Inv (c : CC) : Prop where
  len_eq : c.all_items.length = c.capacity_
  cap_pos : 0 < c.capacity_
  cap_lt : c.capacity_ < mask_type
  bs_pos : 0 < c.block_size
  used0 : c.type 0 = USED
  free_ok : ∃ l, FreeChain c c.free_list l ∧ l.Nodup ∧
    (∀ j, 0 < j → j < c.capacity_ → (c.type j = FREE ↔ j ∈ l))
  size_eq : c.size_ = usedCount c

theorem usedCount_congr {c c' : CC} (hcap : c'.capacity_ = c.capacity_)
    (h : ∀ j, 0 < j → j < c.capacity_ → c'.type j = c.type j) :
    usedCount c' = usedCount c := by
  unfold usedCount
  rw [hcap]
  congr 1
  apply Finset.filter_congr
  intro j hj
  rw [Finset.mem_range] at hj
  constructor
  · rintro ⟨hj0, hju⟩
    exact ⟨hj0, by rw [← h j hj0 hj]; exact hju⟩
  · rintro ⟨hj0, hju⟩
    exact ⟨hj0, by rw [h j hj0 hj]; exact hju⟩

theorem usedCount_extend {c c' : CC} {m : Nat} (hcap : c'.capacity_ = c.capacity_ + m)
    (h : ∀ j, 0 < j → j < c.capacity_ → c'.type j = c.type j)
    (hnew : ∀ j, c.capacity_ ≤ j → j < c.capacity_ + m → c'.type j ≠ USED) :
    usedCount c' = usedCount c := by
  unfold usedCount
  rw [hcap]
  congr 1
  apply Finset.ext
  intro i
  simp only [Finset.mem_filter, Finset.mem_range]
  constructor
  · rintro ⟨hi, hi0, hiu⟩
    by_cases hlt : i < c.capacity_
    · exact ⟨hlt, hi0, by rw [← h i hi0 hlt]; exact hiu⟩
    · exact absurd hiu (hnew i (Nat.le_of_not_lt hlt) hi)
  · rintro ⟨hi, hi0, hiu⟩
    exact ⟨by omega, hi0, by rw [h i hi0 hi]; exact hiu⟩

theorem usedCount_flip_up {c c' : CC} {x : Nat} (hcap : c'.capacity_ = c.capacity_)
    (hx0 : 0 < x) (hxc : x < c.capacity_) (hbefore : c.type x ≠ USED)
    (hafter : c'.type x = USED) (h : ∀ j, j ≠ x → c'.type j = c.type j) :
    usedCount c' = usedCount c + 1 := by
  unfold usedCount
  rw [hcap]
  have hset : (Finset.range c.capacity_).filter (fun i => 0 < i ∧ c'.type i = USED) =
      Insert.insert x ((Finset.range c.capacity_).filter (fun i => 0 < i ∧ c.type i = USED)) := by
    apply Finset.ext
    intro i
    simp only [Finset.mem_filter, Finset.mem_range, Finset.mem_insert]
    constructor
    · rintro ⟨hi, hi0, hiu⟩
      by_cases hix : i = x
      · exact Or.inl hix
      · exact Or.inr ⟨hi, hi0, by rw [← h i hix]; exact hiu⟩
    · rintro (hix | ⟨hi, hi0, hiu⟩)
      · subst hix; exact ⟨hxc, hx0, hafter⟩
      · refine ⟨hi, hi0, ?_⟩
        by_cases hix : i = x
        · subst hix; exact absurd hiu hbefore
        · rw [h i hix]; exact hiu
  rw [hset]
  apply Finset.card_insert_of_not_mem
  simp only [Finset.mem_filter, Finset.mem_range]
  rintro ⟨_, _, hx⟩
  exact hbefore hx

theorem usedCount_flip_down {c c' : CC} {x : Nat} (hcap : c'.capacity_ = c.capacity_)
    (hx0 : 0 < x) (hxc : x < c.capacity_) (hbefore : c.type x = USED)
    (hafter : c'.type x ≠ USED) (h : ∀ j, j ≠ x → c'.type j = c.type j) :
    usedCount c' = usedCount c - 1 := by
  unfold usedCount
  rw [hcap]
  have hset : (Finset.range c.capacity_).filter (fun i => 0 < i ∧ c'.type i = USED) =
      ((Finset.range c.capacity_).filter (fun i => 0 < i ∧ c.type i = USED)).erase x := by
    apply Finset.ext
    intro i
    simp only [Finset.mem_filter, Finset.mem_range, Finset.mem_erase]
    constructor
    · rintro ⟨hi, hi0, hiu⟩
      have hix : i ≠ x := by
        intro hix
        subst hix
        exact hafter hiu
      exact ⟨hix, hi, hi0, by rw [← h i hix]; exact hiu⟩
    · rintro ⟨hix, hi, hi0, hiu⟩
      exact ⟨hi, hi0, by rw [h i hix]; exact hiu⟩
  rw [hset]
  apply Finset.card_erase_of_mem
  simp only [Finset.mem_filter, Finset.mem_range]
  exact ⟨hxc, hx0, hbefore⟩

theorem usedCount_pos_of_used {c : CC} {x : Nat} (hx0 : 0 < x) (hxc : x < c.capacity_)
    (hused : c.type x = USED) : 0 < usedCount c := by
  unfold usedCount
  apply Finset.card_pos.mpr
  exact ⟨x, by simp only [Finset.mem_filter, Finset.mem_range]; exact ⟨hxc, hx0, hused⟩⟩

theorem inv_free_list_lt {c : CC} (hI : Inv c) : c.free_list < mask_type := by
  obtain ⟨l, hfc, -, -⟩ := hI.free_ok
  rcases freeChain_head hfc with h0 | ⟨-, hlt⟩
  · rw [h0]
    unfold mask_type
    positivity
  · exact Nat.lt_trans hlt hI.cap_lt

/-- Building the chain of a freshly linked block: if the slots of
`[base, base + bs)` each hold a `FREE` tag word pointing to the next slot
(the last one pointing to `fl0`), they extend any chain hanging from `fl0`. -/
theorem freeChain_build {c' : CC} {base bs fl0 : Nat} {l : List Nat}
    (hbase : 0 < base) (hcaplt : c'.capacity_ < mask_type)
    (hcap : base + bs ≤ c'.capacity_) (hfl0 : fl0 < mask_type)
    (hword : ∀ j, base ≤ j → j < base + bs →
      c'.get j = static_set_val default (if j + 1 < base + bs then j + 1 else fl0) FREE)
    (htail : FreeChain c' fl0 l) :
    ∀ k, k ≤ bs →
      FreeChain c' (if k = 0 then fl0 else base + (bs - k))
        (List.range' (base + (bs - k)) k ++ l) := by
  intro k
  induction k with
  | zero =>
    intro _
    simpa using htail
  | succ k ih =>
    intro hk1
    rw [if_neg (Nat.succ_ne_zero k), List.range'_succ, List.cons_append]
    have hj1 : base ≤ base + (bs - (k + 1)) := Nat.le_add_right _ _
    have hj2 : base + (bs - (k + 1)) < base + bs := by omega
    have hw := hword _ hj1 hj2
    have hvlt : (if base + (bs - (k + 1)) + 1 < base + bs
        then base + (bs - (k + 1)) + 1 else fl0) < mask_type := by
      by_cases hc : base + (bs - (k + 1)) + 1 < base + bs
      · rw [if_pos hc]
        omega
      · rw [if_neg hc]
        exact hfl0
    refine freeChain_cons (by omega) (by omega) ?_ ?_
    · unfold type
      rw [hw]
      exact static_type_set_val_free _ _
    · unfold get_val
      rw [hw, static_get_val_set_val_free _ hvlt]
      have hk := ih (by omega)
      by_cases hk0 : k = 0
      · subst hk0
        rw [if_pos rfl] at hk
        rw [if_neg (by omega)]
        have harith : base + (bs - (0 + 1)) + 1 = base + (bs - 0) := by omega
        rw [harith]
        simpa using hk
      · rw [if_neg hk0] at hk
        rw [if_pos (by omega)]
        have harith : base + (bs - (k + 1)) + 1 = base + (bs - k) := by omega
        rw [harith]
        exact hk

/-- `allocate_new_block` preserves the invariant and prepends the new
indices, in ascending order starting at the old capacity, to the free
list. -/
theorem allocate_inv (p : Increment_policy) (c : CC) (hp : p.ok) (hI : Inv c)
    (hlt : c.capacity_ + c.block_size < mask_type) {l : List Nat}
    (hfc : FreeChain c c.free_list l) :
    Inv (c.allocate_new_block p) ∧
    (c.allocate_new_block p).free_list = c.capacity_ ∧
    FreeChain (c.allocate_new_block p) c.capacity_
      (List.range' c.capacity_ c.block_size ++ l) ∧
    (c.allocate_new_block p).capacity_ = c.capacity_ + c.block_size ∧
    (∀ j, j < c.capacity_ → (c.allocate_new_block p).get j = c.get j) ∧
    (c.allocate_new_block p).size_ = c.size_ := by
  obtain ⟨a1, a2, a3, a4, a5, a6, a7⟩ := allocate_new_block_spec p c hI.len_eq hI.bs_pos
  have hbs := hI.bs_pos
  have hcp := hI.cap_pos
  obtain ⟨l0, hfc0, hnd0, hiff0⟩ := hI.free_ok
  have hll0 : l = l0 := freeChain_unique hfc hfc0
  subst hll0
  have hmem := freeChain_mem hfc
  have htail : FreeChain (c.allocate_new_block p) c.free_list l :=
    freeChain_congr (by rw [a1]; omega) (fun x hx => a6 x (hmem x hx).2.1) hfc
  have hchain : FreeChain (c.allocate_new_block p) c.capacity_
      (List.range' c.capacity_ c.block_size ++ l) := by
    have hb := @freeChain_build (c.allocate_new_block p) c.capacity_
      c.block_size c.free_list l hI.cap_pos
      (by rw [a1]; exact hlt) (by rw [a1]) (inv_free_list_lt hI)
      (fun j hj1 hj2 => by rw [a7 j hj1 hj2]) htail c.block_size (Nat.le_refl _)
    rw [if_neg (by omega), Nat.sub_self, Nat.add_zero] at hb
    exact hb
  have htype_new : ∀ j, c.capacity_ ≤ j → j < c.capacity_ + c.block_size →
      (c.allocate_new_block p).type j = FREE := by
    intro j hj1 hj2
    unfold type
    rw [a7 j hj1 hj2]
    exact static_type_set_val_free _ _
  have htype_old : ∀ j, j < c.capacity_ →
      (c.allocate_new_block p).type j = c.type j := by
    intro j hj
    unfold type
    rw [a6 j hj]
  refine ⟨⟨?_, ?_, ?_, ?_, ?_, ?_, ?_⟩, a5, hchain, a1, a6, a2⟩
  · rw [a4, a1]
  · rw [a1]
    omega
  · rw [a1]
    exact hlt
  · rw [a3]
    exact hp.2.2 _
  · rw [htype_old 0 hI.cap_pos]
    exact hI.used0
  · refine ⟨List.range' c.capacity_ c.block_size ++ l, by rw [a5]; exact hchain, ?_, ?_⟩
    · refine List.Nodup.append (List.nodup_range' _ _) hnd0 ?_
      intro x hx1 hx2
      rw [List.mem_range'_1] at hx1
      exact absurd (hmem x hx2).2.1 (by omega)
    · intro j hj0 hjc
      rw [a1] at hjc
      by_cases hjold : j < c.capacity_
      · rw [htype_old j hjold, List.mem_append, List.mem_range'_1]
        rw [hiff0 j hj0 hjold]
        constructor
        · exact fun hm => Or.inr hm
        · rintro (hm | hm)
          · omega
          · exact hm
      · rw [htype_new j (by omega) hjc]
        simp only [List.mem_append, List.mem_range'_1]
        constructor
        · intro _
          exact Or.inl ⟨by omega, by omega⟩
        · intro _
          trivial
  · rw [a2, hI.size_eq]
    exact (usedCount_extend a1 (fun j hj0 hj => htype_old j hj)
      (fun j hj1 hj2 => by rw [htype_new j hj1 hj2]; decide)).symm

theorem freeChain_nil_inv {c : CC} {h : Nat} (hfc : FreeChain c h []) : h = 0 := by
  cases hfc
  rfl

/-- `emplace` with a non-empty free list pops the head of the chain,
stores `t` there, and leaves every other slot untouched. -/
theorem emplace_pop_spec (p : Increment_policy) (c : CC) (t : Elem) {x : Nat} {l : List Nat}
    (hI : Inv c) (ht : t.word < mask_type)
    (hfc : FreeChain c c.free_list (x :: l)) :
    (c.emplace p t).2 = x ∧
    x ≠ 0 ∧ x < c.capacity_ ∧ c.type x = FREE ∧
    Inv (c.emplace p t).1 ∧
    FreeChain (c.emplace p t).1 (c.emplace p t).1.free_list l ∧
    (c.emplace p t).1.capacity_ = c.capacity_ ∧
    (c.emplace p t).1.get x = t ∧
    (∀ j, j ≠ x → (c.emplace p t).1.get j = c.get j) ∧
    (c.emplace p t).1.size_ = c.size_ + 1 := by
  obtain ⟨hxfl, hx0, hxc, hxfree, hrest⟩ := freeChain_cons_inv hfc
  subst hxfl
  have hfl0 : ¬c.free_list = 0 := hx0
  have he : c.emplace p t =
      ({ c with
          all_items := c.all_items.set c.free_list t,
          free_list := c.get_val c.free_list,
          size_ := c.size_ + 1 },
        c.free_list) := by
    rw [emplace_eq_pop p c t hfl0, emplace_aux_eq]
  obtain ⟨l0, hfc0, hnd0, hiff0⟩ := hI.free_ok
  have huq := freeChain_unique hfc hfc0
  rw [← huq] at hnd0 hiff0
  have hnotmem : c.free_list ∉ l := (List.nodup_cons.mp hnd0).1
  rw [he]
  have hgx : ((c.all_items.set c.free_list t).getD c.free_list default) = t :=
    getD_set_self c.all_items t (by rw [hI.len_eq]; exact hxc)
  have hgj : ∀ j, j ≠ c.free_list →
      ((c.all_items.set c.free_list t).getD j default) = c.all_items.getD j default :=
    fun j hj => getD_set_ne c.all_items (fun h => hj h.symm) t
  have htype_x : static_type t = USED := static_type_of_lt ht
  have htype_pres : ∀ j, j ≠ c.free_list →
      static_type ((c.all_items.set c.free_list t).getD j default) = c.type j := by
    intro j hj
    rw [hgj j hj]
    rfl
  have hchainS : FreeChain
      ({ c with
          all_items := c.all_items.set c.free_list t,
          free_list := c.get_val c.free_list,
          size_ := c.size_ + 1 } : CC) (c.get_val c.free_list) l := by
    refine freeChain_congr ?_ ?_ hrest
    · exact Nat.le_refl _
    intro y hy
    have hyne : y ≠ c.free_list := fun h => hnotmem (h ▸ hy)
    show (c.all_items.set c.free_list t).getD y default = c.get y
    exact hgj y hyne
  refine ⟨rfl, hx0, hxc, hxfree, ⟨?_, hI.cap_pos, hI.cap_lt, hI.bs_pos, ?_, ?_, ?_⟩,
    hchainS, rfl, hgx, fun j hj => hgj j hj, rfl⟩
  · show (c.all_items.set c.free_list t).length = c.capacity_
    rw [List.length_set]
    exact hI.len_eq
  · show static_type ((c.all_items.set c.free_list t).getD 0 default) = USED
    rw [htype_pres 0 (fun h => hx0 h.symm)]
    exact hI.used0
  · refine ⟨l, hchainS, (List.nodup_cons.mp hnd0).2, ?_⟩
    intro j hj0 hjc
    show static_type ((c.all_items.set c.free_list t).getD j default) = FREE ↔ j ∈ l
    by_cases hj : j = c.free_list
    · subst hj
      rw [hgx, htype_x]
      constructor
      · intro h
        exact absurd h (by decide)
      · intro h
        exact absurd h hnotmem
    · rw [htype_pres j hj]
      rw [hiff0 j hj0 hjc, List.mem_cons]
      constructor
      · rintro (h | h)
        · exact absurd h hj
        · exact h
      · exact fun h => Or.inr h
  · show c.size_ + 1 = usedCount _
    have hflip := @usedCount_flip_up c
      { c with
          all_items := c.all_items.set c.free_list t,
          free_list := c.get_val c.free_list,
          size_ := c.size_ + 1 }
      c.free_list
      rfl (Nat.pos_of_ne_zero hx0) hxc (by rw [hxfree]; decide)
      (by show static_type ((c.all_items.set c.free_list t).getD c.free_list default) = USED
          rw [hgx]; exact htype_x)
      (fun j hj => htype_pres j hj)
    rw [hflip, hI.size_eq]

/-- `emplace`/`insert`: full specification covering both the pop path and
the growth path. -/
theorem emplace_spec (p : Increment_policy) (c : CC) (t : Elem) (hp : p.ok) (hI : Inv c)
    (ht : t.word < mask_type)
    (hgrow : c.free_list = 0 → c.capacity_ + c.block_size < mask_type) :
    Inv (c.emplace p t).1 ∧
    (c.emplace p t).2 ≠ 0 ∧
    (c.emplace p t).2 < (c.emplace p t).1.capacity_ ∧
    (c.emplace p t).1.get (c.emplace p t).2 = t ∧
    (c.emplace p t).1.size_ = c.size_ + 1 ∧
    c.capacity_ ≤ (c.emplace p t).1.capacity_ ∧
    (∀ j, j ≠ (c.emplace p t).2 → j < c.capacity_ → (c.emplace p t).1.get j = c.get j) ∧
    (c.capacity_ ≤ (c.emplace p t).2 ∨ c.type (c.emplace p t).2 = FREE) := by
  by_cases hfl : c.free_list = 0
  · obtain ⟨l0, hfc0, hnd0, hiff0⟩ := hI.free_ok
    rw [hfl] at hfc0
    have hl0 : l0 = [] := freeChain_zero hfc0
    subst hl0
    obtain ⟨hAInv, hAfl, hAchain, hAcap, hAget, hAsize⟩ :=
      allocate_inv p c hp hI (hgrow hfl) (hfl ▸ FreeChain.nil)
    rw [List.append_nil] at hAchain
    have hbs1 : c.block_size = (c.block_size - 1) + 1 := by
      have := hI.bs_pos
      omega
    rw [hbs1, List.range'_succ] at hAchain
    have hAfl0 : ¬(c.allocate_new_block p).free_list = 0 := by
      rw [hAfl]
      exact Nat.pos_iff_ne_zero.mp hI.cap_pos
    have heq : c.emplace p t = (c.allocate_new_block p).emplace p t := by
      rw [emplace_eq_grow p c t hfl, emplace_eq_pop p _ t hAfl0]
    have hAchain' : FreeChain (c.allocate_new_block p) (c.allocate_new_block p).free_list
        (c.capacity_ :: List.range' (c.capacity_ + 1) (c.block_size - 1)) := by
      rw [hAfl]
      exact hAchain
    obtain ⟨e1, e2, e3, e4, e5, e6, e7, e8, e9, e10⟩ :=
      emplace_pop_spec p (c.allocate_new_block p) t hAInv ht hAchain'
    rw [heq]
    refine ⟨e5, ?_, ?_, ?_, ?_, ?_, ?_, ?_⟩
    · rw [e1]
      exact Nat.pos_iff_ne_zero.mp hI.cap_pos
    · rw [e1, e7, hAcap]
      have := hI.bs_pos
      omega
    · rw [e1]
      exact e8
    · rw [e10, hAsize]
    · rw [e7, hAcap]
      exact Nat.le_add_right _ _
    · intro j hj hjc
      rw [e9 j (by rw [e1] at hj; exact hj), hAget j hjc]
    · left
      rw [e1]
  · obtain ⟨l0, hfc0, hnd0, hiff0⟩ := hI.free_ok
    cases l0 with
    | nil => exact absurd (freeChain_nil_inv hfc0) hfl
    | cons x l =>
      obtain ⟨e1, e2, e3, e4, e5, e6, e7, e8, e9, e10⟩ :=
        emplace_pop_spec p c t hI ht hfc0
      refine ⟨e5, ?_, ?_, ?_, e10, ?_, ?_, ?_⟩
      · rw [e1]
        exact e2
      · rw [e1, e7]
        exact e3
      · rw [e1]
        exact e8
      · rw [e7]
      · intro j hj hjc
        exact e9 j (by rw [e1] at hj; exact hj)
      · right
        rw [e1]
        exact e4

/-- `erase` on a used slot: the slot becomes the new head of the free list
and every other slot is untouched. -/
theorem erase_spec (c : CC) (x : Nat) (hI : Inv c) (hx0 : x ≠ 0)
    (hxc : x < c.capacity_) (hused : c.type x = USED) :
    Inv (c.erase x) ∧
    (c.erase x).free_list = x ∧
    (c.erase x).capacity_ = c.capacity_ ∧
    (∀ j, j ≠ x → (c.erase x).get j = c.get j) ∧
    (c.erase x).size_ = c.size_ - 1 ∧
    (∀ l, FreeChain c c.free_list l → FreeChain (c.erase x) x (x :: l)) := by
  have he := erase_eq c x
  have hfl_lt := inv_free_list_lt hI
  have hgx : (c.erase x).get x = static_set_val default c.free_list FREE := by
    rw [he]
    exact getD_set_self c.all_items _ (by rw [hI.len_eq]; exact hxc)
  have hgj : ∀ j, j ≠ x → (c.erase x).get j = c.get j := by
    intro j hj
    rw [he]
    exact getD_set_ne c.all_items (fun h => hj h.symm) _
  have htype_x : (c.erase x).type x = FREE := by
    unfold type
    rw [hgx]
    exact static_type_set_val_free _ _
  have hgetval_x : (c.erase x).get_val x = c.free_list := by
    unfold get_val
    rw [hgx]
    exact static_get_val_set_val_free _ hfl_lt
  have htype_pres : ∀ j, j ≠ x → (c.erase x).type j = c.type j := by
    intro j hj
    unfold type
    rw [hgj j hj]
  have hcap : (c.erase x).capacity_ = c.capacity_ := by
    rw [he]
  have hchain : ∀ l, FreeChain c c.free_list l → FreeChain (c.erase x) x (x :: l) := by
    intro l hfc
    obtain ⟨l0, hfc0, hnd0, hiff0⟩ := hI.free_ok
    have huq := freeChain_unique hfc hfc0
    subst huq
    have hxnot : x ∉ l := by
      intro hmem
      have := (hiff0 x (Nat.pos_of_ne_zero hx0) hxc).mpr hmem
      rw [hused] at this
      exact absurd this (by decide)
    refine freeChain_cons hx0 (by rw [hcap]; exact hxc) htype_x ?_
    rw [hgetval_x]
    refine freeChain_congr (by rw [hcap]) ?_ hfc
    intro y hy
    exact hgj y (fun h => hxnot (h ▸ hy))
  obtain ⟨l0, hfc0, hnd0, hiff0⟩ := hI.free_ok
  have hxnot : x ∉ l0 := by
    intro hmem
    have := (hiff0 x (Nat.pos_of_ne_zero hx0) hxc).mpr hmem
    rw [hused] at this
    exact absurd this (by decide)
  have hsize : (c.erase x).size_ = c.size_ - 1 := by
    rw [he]
  refine ⟨⟨?_, ?_, ?_, ?_, ?_, ?_, ?_⟩, by rw [he], hcap, hgj, hsize, hchain⟩
  · rw [he]
    show (c.all_items.set x _).length = c.capacity_
    rw [List.length_set]
    exact hI.len_eq
  · rw [hcap]
    exact hI.cap_pos
  · rw [hcap]
    exact hI.cap_lt
  · rw [he]
    exact hI.bs_pos
  · rw [htype_pres 0 (fun h => hx0 h.symm)]
    exact hI.used0
  · refine ⟨x :: l0, ?_, List.nodup_cons.mpr ⟨hxnot, hnd0⟩, ?_⟩
    · have := hchain l0 hfc0
      rw [show (c.erase x).free_list = x from by rw [he]]
      exact this
    · intro j hj0 hjc
      rw [hcap] at hjc
      by_cases hj : j = x
      · subst hj
        rw [htype_x]
        simp
      · rw [htype_pres j hj, List.mem_cons]
        rw [hiff0 j hj0 hjc]
        constructor
        · exact fun h => Or.inr h
        · rintro (h | h)
          · exact absurd h hj
          · exact h
  · rw [hsize, hI.size_eq]
    exact (@usedCount_flip_down c (c.erase x) x hcap
      (Nat.pos_of_ne_zero hx0) hxc hused (by rw [htype_x]; decide) htype_pres).symm

/-! ### Fresh stores and erase-free insertion sequences -/

/-- Shape of a store obtained from `init` followed by the insertions of
`vals` (no erases): slot 0 is the retired default element, slots
`1 .. vals.length` hold the inserted values in order, and the remaining
slots form the ascending free chain `vals.length+1, ..., capacity_-1, 0`. -/
def SeqInv (vals : List Elem) (c : CC) : Prop :=
  c.all_items.length = c.capacity_ ∧
  vals.length < c.capacity_ ∧
  c.capacity_ < mask_type ∧
  0 < c.block_size ∧
  c.size_ = vals.length ∧
  c.free_list = (if vals.length + 1 < c.capacity_ then vals.length + 1 else 0) ∧
  c.get 0 = default ∧
  (∀ i, i < vals.length → c.get (i + 1) = vals.getD i default) ∧
  (∀ j, vals.length < j → j < c.capacity_ →
    c.get j = static_set_val default (if j + 1 < c.capacity_ then j + 1 else 0) FREE)

theorem seqInv_init (p : Increment_policy) (hp : p.ok) : SeqInv [] (init p) := by
  obtain ⟨hbp, hbm, hinc⟩ := hp
  have hc0fl : (⟨0, 0, p.first_block_size, 0, []⟩ : CC).free_list = 0 := rfl
  have hemp : (⟨0, 0, p.first_block_size, 0, []⟩ : CC).emplace p default =
      ((⟨0, 0, p.first_block_size, 0, []⟩ : CC).allocate_new_block p).emplace_aux default :=
    emplace_eq_grow p _ default hc0fl
  obtain ⟨a1, a2, a3, a4, a5, a6, a7⟩ :=
    allocate_new_block_spec p (⟨0, 0, p.first_block_size, 0, []⟩ : CC) rfl hbp
  rw [emplace_aux_eq] at hemp
  have hinit : init p =
      { ((⟨0, 0, p.first_block_size, 0, []⟩ : CC).emplace p default).1 with size_ := 0 } := rfl
  rw [hemp] at hinit
  set ca := (⟨0, 0, p.first_block_size, 0, []⟩ : CC).allocate_new_block p with hca
  have hcaget0 : ca.get 0 = static_set_val default
      (if 1 < p.first_block_size then 1 else 0) FREE := by
    have := a7 0 (Nat.le_refl 0 |>.trans (Nat.zero_le 0)) (by simpa using hbp)
    simpa using this
  have hcav : ca.get_val 0 = (if 1 < p.first_block_size then 1 else 0) := by
    unfold get_val
    rw [hcaget0]
    apply static_get_val_set_val_free
    by_cases h1 : 1 < p.first_block_size
    · rw [if_pos h1]
      unfold mask_type
      norm_num
    · rw [if_neg h1]
      unfold mask_type
      positivity
  have hca5 : ca.free_list = 0 := a5
  have hinit2 : init p =
      { ca with all_items := ca.all_items.set 0 default,
                free_list := (if 1 < p.first_block_size then 1 else 0),
                size_ := 0 } := by
    rw [hinit, hca5, hcav]
  have hcalen : ca.all_items.length = p.first_block_size := by
    rw [a4]
    simp
  have hcacap : ca.capacity_ = p.first_block_size := by
    rw [a1]
    simp
  refine ⟨?_, ?_, ?_, ?_, ?_, ?_, ?_, ?_, ?_⟩
  · rw [hinit2]
    show (ca.all_items.set 0 default).length = ca.capacity_
    rw [List.length_set, hcalen, hcacap]
  · rw [hinit2]
    show 0 < ca.capacity_
    rw [hcacap]
    simpa using hbp
  · rw [hinit2]
    show ca.capacity_ < mask_type
    rw [hcacap]
    exact hbm
  · rw [hinit2]
    show 0 < ca.block_size
    rw [a3]
    exact hinc _
  · rw [hinit2]
    rfl
  · rw [hinit2]
    show (if 1 < p.first_block_size then 1 else 0) =
      if 0 + 1 < ca.capacity_ then 0 + 1 else 0
    rw [hcacap]
  · rw [hinit2]
    show (ca.all_items.set 0 default).getD 0 default = default
    exact getD_set_self _ _ (by rw [hcalen]; exact hbp)
  · intro i hi
    simp at hi
  · intro j hj0 hjc
    have hj0' : 0 < j := by simpa using hj0
    rw [hinit2] at hjc
    have hjc1 : j < ca.capacity_ := hjc
    have hjc2 : j < p.first_block_size := by omega
    rw [hinit2]
    show (ca.all_items.set 0 default).getD j default =
      static_set_val default (if j + 1 < ca.capacity_ then j + 1 else 0) FREE
    rw [getD_set_ne _ (by omega) _]
    have h7 := a7 j (Nat.zero_le j) (by simpa using hjc2)
    rw [show (ca.all_items.getD j default) = ca.get j from rfl, h7]
    congr 1
    show (if j + 1 < 0 + p.first_block_size then j + 1 else 0) =
      (if j + 1 < ca.capacity_ then j + 1 else 0)
    rw [Nat.zero_add, hcacap]

theorem getD_append_len (l : List Elem) (t : Elem) :
    (l ++ [t]).getD l.length default = t := by
  rw [List.getD_eq_getElem?_getD, List.getElem?_append_right (Nat.le_refl _)]
  simp

theorem getD_append_lt {l : List Elem} {i : Nat} (t : Elem) (h : i < l.length) :
    (l ++ [t]).getD i default = l.getD i default :=
  getD_append_left h

/-- One insertion on a sequentially built store returns handle
`vals.length + 1` and preserves the sequential shape. -/
theorem seq_insert (p : Increment_policy) (c : CC) (vals : List Elem) (t : Elem)
    (hp : p.ok) (hS : SeqInv vals c) (_ht : t.word < mask_type)
    (hgrow : c.free_list = 0 → c.capacity_ + c.block_size < mask_type) :
    (c.insert p t).2 = vals.length + 1 ∧
    SeqInv (vals ++ [t]) (c.insert p t).1 ∧
    c.capacity_ ≤ (c.insert p t).1.capacity_ := by
  obtain ⟨s1, s2, s3, s4, s5, s6, s7, s8, s9⟩ := hS
  have hie : c.insert p t = c.emplace p t := rfl
  rw [hie]
  by_cases hcase : vals.length + 1 < c.capacity_
  · -- the free list is non-empty: pop its head
    have hfl : c.free_list = vals.length + 1 := by
      rw [s6, if_pos hcase]
    have hfl0 : ¬c.free_list = 0 := by
      rw [hfl]
      exact Nat.succ_ne_zero _
    have he : c.emplace p t =
        ({ c with
            all_items := c.all_items.set c.free_list t,
            free_list := c.get_val c.free_list,
            size_ := c.size_ + 1 },
          c.free_list) := by
      rw [emplace_eq_pop p c t hfl0, emplace_aux_eq]
    have hslot : c.get (vals.length + 1) =
        static_set_val default
          (if vals.length + 2 < c.capacity_ then vals.length + 2 else 0) FREE := by
      have := s9 (vals.length + 1) (Nat.lt_succ_self _) hcase
      simpa [Nat.add_assoc] using this
    have hvlt : (if vals.length + 2 < c.capacity_ then vals.length + 2 else 0) < mask_type := by
      by_cases hc2 : vals.length + 2 < c.capacity_
      · rw [if_pos hc2]
        omega
      · rw [if_neg hc2]
        unfold mask_type
        positivity
    have hgv : c.get_val c.free_list =
        (if vals.length + 2 < c.capacity_ then vals.length + 2 else 0) := by
      rw [hfl]
      unfold get_val
      rw [hslot]
      exact static_get_val_set_val_free _ hvlt
    rw [he]
    refine ⟨hfl, ⟨?_, ?_, s3, s4, ?_, ?_, ?_, ?_, ?_⟩, Nat.le_refl _⟩
    · show (c.all_items.set c.free_list t).length = c.capacity_
      rw [List.length_set]
      exact s1
    · show (vals ++ [t]).length < c.capacity_
      simp only [List.length_append, List.length_cons, List.length_nil]
      omega
    · show c.size_ + 1 = (vals ++ [t]).length
      simp only [List.length_append, List.length_cons, List.length_nil]
      omega
    · show c.get_val c.free_list =
        (if (vals ++ [t]).length + 1 < c.capacity_ then (vals ++ [t]).length + 1 else 0)
      rw [hgv]
      simp only [List.length_append, List.length_cons, List.length_nil]
    · show (c.all_items.set c.free_list t).getD 0 default = default
      rw [getD_set_ne _ (by rw [hfl]; omega) _]
      exact s7
    · intro i hi
      show (c.all_items.set c.free_list t).getD (i + 1) default = (vals ++ [t]).getD i default
      simp only [List.length_append, List.length_cons, List.length_nil] at hi
      by_cases hik : i < vals.length
      · rw [getD_set_ne _ (by rw [hfl]; omega) _, getD_append_lt t hik]
        exact s8 i hik
      · have hieq : i = vals.length := by omega
        subst hieq
        rw [hfl]
        rw [getD_set_self _ _ (by rw [s1]; exact hcase), getD_append_len]
    · intro j hj0 hjc
      show (c.all_items.set c.free_list t).getD j default =
        static_set_val default (if j + 1 < c.capacity_ then j + 1 else 0) FREE
      simp only [List.length_append, List.length_cons, List.length_nil] at hj0
      rw [getD_set_ne _ (by rw [hfl]; omega) _]
      exact s9 j (by omega) hjc
  · -- the free list is empty: a new block is allocated first
    have hfl : c.free_list = 0 := by
      rw [s6, if_neg hcase]
    have hcapk : c.capacity_ = vals.length + 1 := by omega
    obtain ⟨a1, a2, a3, a4, a5, a6, a7⟩ := allocate_new_block_spec p c s1 s4
    have hmask := hgrow hfl
    have hAfl0 : ¬(c.allocate_new_block p).free_list = 0 := by
      rw [a5]
      omega
    have he : c.emplace p t = (c.allocate_new_block p).emplace_aux t :=
      emplace_eq_grow p c t hfl
    rw [he, emplace_aux_eq]
    have hAgetfl : (c.allocate_new_block p).get (c.allocate_new_block p).free_list =
        static_set_val default
          (if c.capacity_ + 1 < c.capacity_ + c.block_size
           then c.capacity_ + 1 else 0) FREE := by
      rw [a5]
      have := a7 c.capacity_ (Nat.le_refl _) (by omega)
      rw [this, hfl]
    have hvlt : (if c.capacity_ + 1 < c.capacity_ + c.block_size
        then c.capacity_ + 1 else 0) < mask_type := by
      by_cases hc2 : c.capacity_ + 1 < c.capacity_ + c.block_size
      · rw [if_pos hc2]
        omega
      · rw [if_neg hc2]
        unfold mask_type
        positivity
    have hgv : (c.allocate_new_block p).get_val (c.allocate_new_block p).free_list =
        (if c.capacity_ + 1 < c.capacity_ + c.block_size then c.capacity_ + 1 else 0) := by
      unfold get_val
      rw [hAgetfl]
      exact static_get_val_set_val_free _ hvlt
    refine ⟨by rw [a5, hcapk], ⟨?_, ?_, ?_, ?_, ?_, ?_, ?_, ?_, ?_⟩, ?_⟩
    · show ((c.allocate_new_block p).all_items.set (c.allocate_new_block p).free_list t).length =
        (c.allocate_new_block p).capacity_
      rw [List.length_set, a4, a1]
    · show (vals ++ [t]).length < (c.allocate_new_block p).capacity_
      simp only [List.length_append, List.length_cons, List.length_nil]
      rw [a1]
      omega
    · show (c.allocate_new_block p).capacity_ < mask_type
      rw [a1]
      exact hmask
    · show 0 < (c.allocate_new_block p).block_size
      rw [a3]
      exact hp.2.2 _
    · show (c.allocate_new_block p).size_ + 1 = (vals ++ [t]).length
      rw [a2, s5]
      simp
    · show (c.allocate_new_block p).get_val (c.allocate_new_block p).free_list =
        (if (vals ++ [t]).length + 1 < (c.allocate_new_block p).capacity_
         then (vals ++ [t]).length + 1 else 0)
      rw [hgv, a1]
      simp only [List.length_append, List.length_cons, List.length_nil]
      have harith : vals.length + 1 + 1 = c.capacity_ + 1 := by omega
      rw [harith]
    · show ((c.allocate_new_block p).all_items.set (c.allocate_new_block p).free_list t).getD
        0 default = default
      rw [getD_set_ne _ (by rw [a5]; omega) _]
      have h6 := a6 0 (by omega)
      rw [show ((c.allocate_new_block p).all_items.getD 0 default) =
        (c.allocate_new_block p).get 0 from rfl, h6]
      exact s7
    · intro i hi
      show ((c.allocate_new_block p).all_items.set (c.allocate_new_block p).free_list t).getD
        (i + 1) default = (vals ++ [t]).getD i default
      simp only [List.length_append, List.length_cons, List.length_nil] at hi
      by_cases hik : i < vals.length
      · rw [getD_set_ne _ (by rw [a5]; omega) _]
        have h6 := a6 (i + 1) (by omega)
        rw [show ((c.allocate_new_block p).all_items.getD (i + 1) default) =
          (c.allocate_new_block p).get (i + 1) from rfl, h6, getD_append_lt t hik]
        exact s8 i hik
      · have hieq : i = vals.length := by omega
        subst hieq
        have hidx : vals.length + 1 = (c.allocate_new_block p).free_list := by
          rw [a5, hcapk]
        rw [hidx, getD_set_self _ _ (by rw [a4]; omega), getD_append_len]
    · intro j hj0 hjc
      show ((c.allocate_new_block p).all_items.set (c.allocate_new_block p).free_list t).getD
        j default = static_set_val default
          (if j + 1 < (c.allocate_new_block p).capacity_ then j + 1 else 0) FREE
      simp only [List.length_append, List.length_cons, List.length_nil] at hj0
      have hjc1 : j < (c.allocate_new_block p).capacity_ := hjc
      rw [a1] at hjc1
      rw [getD_set_ne _ (by rw [a5]; omega) _]
      have h7 := a7 j (by omega) (by omega)
      rw [show ((c.allocate_new_block p).all_items.getD j default) =
        (c.allocate_new_block p).get j from rfl, h7, hfl, a1]
    · show c.capacity_ ≤ (c.allocate_new_block p).capacity_
      rw [a1]
      omega

end Compact_container_with_index_2

/-- A public mutating operation of the container: `ins t` is
`insert`/`emplace` constructing the element `t`, `del h` is `erase(h)`. -/
inductive Op where
  | ins (t : Elem)
  | del (h : Nat)
deriving DecidableEq

namespace Compact_container_with_index_2

/-- Apply one operation. -/
def app (p : Increment_policy) (c : CC) : Op → CC
  | .ins t => (c.emplace p t).1
  | .del h => c.erase h

/-- Run a sequence of operations. -/
def run (p : Increment_policy) (c : CC) : List Op → CC
  | [] => c
  | o :: os => run p (app p c o) os

/-- Executable validity of one operation: an inserted element keeps the
tag bit clear (the documented client contract) and a growth step stays in
the 63-bit index range; an erased handle is a live non-null in-range
handle (the `CGAL_precondition(type(x) == USED)` of `erase`). -/
def validOp (c : CC) : Op → Bool
  | .ins t => decide (t.word < mask_type) &&
      (if c.free_list = 0 then decide (c.capacity_ + c.block_size < mask_type) else true)
  | .del h => (h != 0) && decide (h < c.capacity_) && c.is_used h

/-- Executable validity of an operation sequence, checked state by state. -/
def validOps (p : Increment_policy) (c : CC) : List Op → Bool
  | [] => true
  | o :: os => validOp c o && validOps p (app p c o) os

/-- Insert a list of elements in order, returning the final state and the
handles in order of issue. -/
def insertList (p : Increment_policy) (c : CC) : List Elem → CC × List Nat
  | [] => (c, [])
  | t :: ts =>
    let r := c.insert p t
    let r2 := r.1.insertList p ts
    (r2.1, r.2 :: r2.2)

theorem validOps_cons {p : Increment_policy} {c : CC} {o : Op} {os : List Op} :
    validOps p c (o :: os) = true ↔
      (validOp c o = true ∧ validOps p (app p c o) os = true) := by
  show (validOp c o && validOps p (app p c o) os) = true ↔ _
  rw [Bool.and_eq_true]

theorem validOp_ins_iff {c : CC} {t : Elem} :
    validOp c (Op.ins t) = true ↔
      (t.word < mask_type ∧ (c.free_list = 0 → c.capacity_ + c.block_size < mask_type)) := by
  unfold validOp
  by_cases hfl : c.free_list = 0
  · simp [hfl]
  · simp [hfl]

theorem is_used_iff {c : CC} {h : Nat} : c.is_used h = true ↔ c.type h = USED := by
  unfold is_used
  exact beq_iff_eq

theorem validOp_del_iff {c : CC} {h : Nat} :
    validOp c (Op.del h) = true ↔ (h ≠ 0 ∧ h < c.capacity_ ∧ c.type h = USED) := by
  unfold validOp
  rw [Bool.and_eq_true, Bool.and_eq_true, bne_iff_ne, decide_eq_true_eq, is_used_iff,
    and_assoc]

/-- The store invariant is preserved, and live slots not erased along the
way are untouched, by any valid operation sequence. -/
theorem run_preserves (p : Increment_policy) (hp : p.ok) :
    ∀ (ops : List Op) (c : CC), Inv c → validOps p c ops = true →
      Inv (run p c ops) ∧
      (∀ h, h ≠ 0 → h < c.capacity_ → c.type h = USED → Op.del h ∉ ops →
        (run p c ops).get h = c.get h ∧ (run p c ops).type h = USED ∧
        h < (run p c ops).capacity_) := by
  intro ops
  induction ops with
  | nil =>
    intro c hI _
    exact ⟨hI, fun h _ hcap hused _ => ⟨rfl, hused, hcap⟩⟩
  | cons o os ih =>
    intro c hI hv
    obtain ⟨hv1, hv2⟩ := validOps_cons.mp hv
    have hrun : run p c (o :: os) = run p (app p c o) os := rfl
    cases o with
    | ins t =>
      obtain ⟨ht, hgrow⟩ := validOp_ins_iff.mp hv1
      obtain ⟨e1, e2, e3, e4, e5, e6, e7, e8⟩ := emplace_spec p c t hp hI ht hgrow
      have happ : app p c (Op.ins t) = (c.emplace p t).1 := rfl
      obtain ⟨ih1, ih2⟩ := ih (c.emplace p t).1 e1 (by rw [← happ]; exact hv2)
      rw [hrun, happ]
      refine ⟨ih1, ?_⟩
      intro h hh0 hhcap hhused hnot
      have hne : h ≠ (c.emplace p t).2 := by
        intro heq
        rcases e8 with hc | hc
        · rw [← heq] at hc
          omega
        · rw [← heq] at hc
          rw [hhused] at hc
          exact absurd hc (by decide)
      have hget1 : (c.emplace p t).1.get h = c.get h := e7 h hne hhcap
      have htype1 : (c.emplace p t).1.type h = USED := by
        unfold type
        rw [hget1]
        exact hhused
      have hnot2 : Op.del h ∉ os := fun hm => hnot (List.mem_cons_of_mem _ hm)
      obtain ⟨g1, g2, g3⟩ := ih2 h hh0 (by omega) htype1 hnot2
      exact ⟨by rw [g1, hget1], g2, g3⟩
    | del x =>
      obtain ⟨hx0, hxc, hxused⟩ := validOp_del_iff.mp hv1
      obtain ⟨e1, e2, e3, e4, e5, e6⟩ := erase_spec c x hI hx0 hxc hxused
      have happ : app p c (Op.del x) = c.erase x := rfl
      obtain ⟨ih1, ih2⟩ := ih (c.erase x) e1 (by rw [← happ]; exact hv2)
      rw [hrun, happ]
      refine ⟨ih1, ?_⟩
      intro h hh0 hhcap hhused hnot
      have hne : h ≠ x := by
        intro heq
        exact hnot (by rw [heq]; exact List.mem_cons_self _ _)
      have hget1 : (c.erase x).get h = c.get h := e4 h hne
      have htype1 : (c.erase x).type h = USED := by
        unfold type
        rw [hget1]
        exact hhused
      have hnot2 : Op.del h ∉ os := fun hm => hnot (List.mem_cons_of_mem _ hm)
      obtain ⟨g1, g2, g3⟩ := ih2 h hh0 (by rw [e3]; exact hhcap) htype1 hnot2
      exact ⟨by rw [g1, hget1], g2, g3⟩

/-- Multi-step version of `seq_insert`: inserting `ts` into a sequentially
built store issues the handles `vals.length+1, ..., vals.length+ts.length`
in ascending order. -/
theorem seq_run (p : Increment_policy) (hp : p.ok) :
    ∀ (ts : List Elem) (vals : List Elem) (c : CC),
      SeqInv vals c → validOps p c (List.map Op.ins ts) = true →
      (c.insertList p ts).2 = List.range' (vals.length + 1) ts.length ∧
      SeqInv (vals ++ ts) (c.insertList p ts).1 := by
  intro ts
  induction ts with
  | nil =>
    intro vals c hS _
    refine ⟨rfl, ?_⟩
    rw [List.append_nil]
    exact hS
  | cons t ts ih =>
    intro vals c hS hv
    rw [List.map_cons] at hv
    obtain ⟨hv1, hv2⟩ := validOps_cons.mp hv
    obtain ⟨ht, hgrow⟩ := validOp_ins_iff.mp hv1
    obtain ⟨r1, r2, r3⟩ := seq_insert p c vals t hp hS ht hgrow
    have happ : app p c (Op.ins t) = (c.insert p t).1 := rfl
    rw [happ] at hv2
    obtain ⟨ih1, ih2⟩ := ih (vals ++ [t]) (c.insert p t).1 r2 hv2
    have hunfold : c.insertList p (t :: ts) =
        (((c.insert p t).1.insertList p ts).1,
          (c.insert p t).2 :: ((c.insert p t).1.insertList p ts).2) := rfl
    rw [hunfold]
    constructor
    · show (c.insert p t).2 :: ((c.insert p t).1.insertList p ts).2 = _
      rw [r1, ih1]
      simp only [List.length_append, List.length_cons, List.length_nil]
      rw [List.range'_succ]
    · show SeqInv (vals ++ t :: ts) ((c.insert p t).1.insertList p ts).1
      have hassoc : vals ++ t :: ts = (vals ++ [t]) ++ ts := by simp
      rw [hassoc]
      exact ih2

/-- A sequentially built store satisfies the general store invariant. -/
theorem inv_of_seq {vals : List Elem} {c : CC} (hS : SeqInv vals c)
    (hclean : ∀ v ∈ vals, v.word < mask_type) : Inv c := by
  obtain ⟨s1, s2, s3, s4, s5, s6, s7, s8, s9⟩ := hS
  have htype_used : ∀ j, 0 < j → j ≤ vals.length → c.type j = USED := by
    intro j hj0 hjk
    unfold type
    have h8 := s8 (j - 1) (by omega)
    rw [show j - 1 + 1 = j by omega] at h8
    rw [h8]
    apply static_type_of_lt
    by_cases hmem : j - 1 < vals.length
    · have : vals.getD (j - 1) default ∈ vals := by
        rw [List.getD_eq_getElem?_getD]
        have := List.getElem?_eq_getElem hmem
        rw [this]
        exact List.getElem_mem _
      exact hclean _ this
    · omega
  have htype_free : ∀ j, vals.length < j → j < c.capacity_ → c.type j = FREE := by
    intro j hjk hjc
    unfold type
    rw [s9 j hjk hjc]
    exact static_type_set_val_free _ _
  refine ⟨s1, by omega, s3, s4, ?_, ?_, ?_⟩
  · unfold type
    rw [s7]
    exact static_type_of_lt get_zero_default
  · refine ⟨List.range' (vals.length + 1) (c.capacity_ - (vals.length + 1)), ?_, ?_, ?_⟩
    · have hb := @freeChain_build c (vals.length + 1)
        (c.capacity_ - (vals.length + 1)) 0 []
        (Nat.succ_pos _) s3 (by omega)
        (by unfold mask_type; positivity)
        (fun j hj1 hj2 => by
          have h9 := s9 j (by omega) (by omega)
          rw [h9]
          congr 1
          by_cases hc : j + 1 < c.capacity_
          · rw [if_pos hc, if_pos (by omega)]
          · rw [if_neg hc, if_neg (by omega)])
        FreeChain.nil (c.capacity_ - (vals.length + 1)) (Nat.le_refl _)
      rw [List.append_nil] at hb
      by_cases hcase : vals.length + 1 < c.capacity_
      · rw [if_neg (by omega), Nat.sub_self, Nat.add_zero] at hb
        rw [s6, if_pos hcase]
        exact hb
      · have hz : c.capacity_ - (vals.length + 1) = 0 := by omega
        rw [hz] at hb
        rw [if_pos rfl] at hb
        rw [s6, if_neg hcase, hz]
        simpa using hb
    · exact List.nodup_range' _ _
    · intro j hj0 hjc
      rw [List.mem_range'_1]
      constructor
      · intro hfree
        by_cases hjk : j ≤ vals.length
        · rw [htype_used j hj0 hjk] at hfree
          exact absurd hfree (by decide)
        · omega
      · rintro ⟨hj1, hj2⟩
        exact htype_free j (by omega) (by omega)
  · rw [s5]
    unfold usedCount
    have hset : (Finset.range c.capacity_).filter (fun i => 0 < i ∧ c.type i = USED) =
        Finset.Icc 1 vals.length := by
      apply Finset.ext
      intro i
      simp only [Finset.mem_filter, Finset.mem_range, Finset.mem_Icc]
      constructor
      · rintro ⟨hi, hi0, hiu⟩
        refine ⟨hi0, ?_⟩
        by_contra hik
        rw [htype_free i (by omega) hi] at hiu
        exact absurd hiu (by decide)
      · rintro ⟨hi1, hi2⟩
        exact ⟨by omega, hi1, htype_used i hi1 hi2⟩
    rw [hset, Nat.card_Icc]
    omega

/-- `init` establishes the store invariant; since `clear` ends in `init`,
so does `clear`. -/
theorem inv_init (p : Increment_policy) (hp : p.ok) : Inv (init p) :=
  inv_of_seq (seqInv_init p hp) (fun v hv => absurd hv (List.not_mem_nil v))

theorem seq_type_used {vals : List Elem} {c : CC} (hS : SeqInv vals c)
    (hclean : ∀ v ∈ vals, v.word < mask_type) :
    ∀ j, 0 < j → j ≤ vals.length → c.type j = USED := by
  obtain ⟨s1, s2, s3, s4, s5, s6, s7, s8, s9⟩ := hS
  intro j hj0 hjk
  unfold type
  have h8 := s8 (j - 1) (by omega)
  rw [show j - 1 + 1 = j by omega] at h8
  rw [h8]
  apply static_type_of_lt
  have hmem : vals.getD (j - 1) default ∈ vals := by
    rw [List.getD_eq_getElem?_getD]
    have hlt : j - 1 < vals.length := by omega
    rw [List.getElem?_eq_getElem hlt]
    exact List.getElem_mem _
  exact hclean _ hmem

theorem seq_type_free {vals : List Elem} {c : CC} (hS : SeqInv vals c) :
    ∀ j, vals.length < j → j < c.capacity_ → c.type j = FREE := by
  obtain ⟨s1, s2, s3, s4, s5, s6, s7, s8, s9⟩ := hS
  intro j hjk hjc
  unfold type
  rw [s9 j hjk hjc]
  exact static_type_set_val_free _ _

/-- Modelled from the spec: the iterator class `CC_iterator_with_index` is
declared in `Compact_container_with_index.h`, which is not under `src/`.
Per the spec (section 4.5), advancing an iterator skips forward over FREE
slots until a LIVE slot or `capacity()` is reached, so traversing
`[begin(), end())` visits the LIVE slots in ascending handle order; handle
0 is the retired sentinel, never a user-visible element (section 3), and is
not part of the visited live handles.  `iterSeq` is the resulting sequence
of visited handles. -/
def iterSeq (c : CC) : List Nat :=
  (List.range c.capacity_).filter (fun i => decide (0 < i) && c.is_used i)

theorem filter_range_eq_range' (cap n : Nat) (pred : Nat → Bool) (hn : n < cap)
    (h0 : pred 0 = false) (h1 : ∀ j, 1 ≤ j → j ≤ n → pred j = true)
    (h2 : ∀ j, n < j → j < cap → pred j = false) :
    (List.range cap).filter pred = List.range' 1 n := by
  have hsplit : List.range cap =
      List.range' 0 (n + 1) ++ List.range' (0 + (n + 1)) (cap - (n + 1)) := by
    rw [List.range_eq_range', List.range'_append_1]
    congr 1
    omega
  rw [hsplit, List.filter_append]
  have hfirst : List.filter pred (List.range' 0 (n + 1)) = List.range' 1 n := by
    rw [List.range'_succ, List.filter_cons, h0]
    simp only [Bool.false_eq_true, if_false]
    rw [show (0 + 1 : Nat) = 1 from rfl]
    exact List.filter_eq_self.mpr (fun a ha => by
      rw [List.mem_range'_1] at ha
      exact h1 a (by omega) (by omega))
  have hsecond : List.filter pred (List.range' (0 + (n + 1)) (cap - (n + 1))) = [] := by
    apply List.filter_eq_nil_iff.mpr
    intro a ha
    rw [List.mem_range'_1] at ha
    rw [h2 a (by omega) (by omega)]
    simp
  rw [hfirst, hsecond, List.append_nil]

/-- On a sequentially built store, iteration visits exactly the issued
handles `1, ..., vals.length` in ascending order. -/
theorem iterSeq_of_seq {vals : List Elem} {c : CC} (hS : SeqInv vals c)
    (hclean : ∀ v ∈ vals, v.word < mask_type) :
    iterSeq c = List.range' 1 vals.length := by
  have s2 : vals.length < c.capacity_ := hS.2.1
  unfold iterSeq
  apply filter_range_eq_range' c.capacity_ vals.length _ s2
  · simp
  · intro j hj1 hj2
    have := seq_type_used hS hclean j (by omega) hj2
    simp [is_used, this]
    omega
  · intro j hj1 hj2
    have := seq_type_free hS j hj1 hj2
    simp [is_used, this, FREE, USED]

/-- The invariant exactly as the spec words it: every index in
`[1, capacity_)` is tagged exactly one of LIVE (`USED`) or FREE, and the
free list visits every FREE index exactly once, terminating at 0. -/
def StoreInv (c : CC) : Prop :=
  (∀ j, 0 < j → j < c.capacity_ →
    ((c.type j = USED ∧ ¬c.type j = FREE) ∨ (c.type j = FREE ∧ ¬c.type j = USED))) ∧
  (∃ l, FreeChain c c.free_list l ∧ l.Nodup ∧
    (∀ j, 0 < j → j < c.capacity_ → (c.type j = FREE ↔ j ∈ l)))

theorem storeInv_of_inv {c : CC} (hI : Inv c) : StoreInv c := by
  refine ⟨?_, hI.free_ok⟩
  intro j _ _
  rcases static_type_cases (c.get j) with h | h
  · refine Or.inl ⟨h, fun hf => ?_⟩
    have h' : c.type j = USED := h
    rw [h'] at hf
    exact absurd hf (by decide)
  · refine Or.inr ⟨h, fun hf => ?_⟩
    have h' : c.type j = FREE := h
    rw [h'] at hf
    exact absurd hf (by decide)

/-- Instrumented version of `allocate_new_block` with the outcome of the
`malloc`/`realloc` call as a parameter.  The source increments `capacity_`
and overwrites `all_items` with the result of `realloc` before anything
else; it never checks that result, so when the allocation fails
(`realloc` returns NULL, losing the old buffer) the subsequent
`put_on_free_list` writes through the NULL buffer — `operator[]`'s
assertion `all_items != NULL` is violated (undefined behaviour in release
builds).  The state at that point, with `capacity_` already grown and the
buffer gone, is returned in `Except.error`; no allocation error is
propagated to the caller by the source. -/
def allocate_new_block_alloc (p : Increment_policy) (allocOk : Bool) (c : CC) :
    Except CC CC :=
  if allocOk then
    Except.ok (c.allocate_new_block p)
  else
    Except.error { c with capacity_ := c.capacity_ + c.block_size, all_items := [] }

/-- A concrete increment policy for concrete instances: first block of 2
slots, constant increment of 2 (`Addition_size_policy<2, 2>` behaviour with
a constant increase). -/
def polC : Increment_policy := ⟨2, fun _ => 2⟩

theorem polC_ok : polC.ok :=
  ⟨by decide, by unfold polC mask_type; norm_num, fun _ => Nat.succ_pos 1⟩

/-- Executable free-chain checker, used to establish `FreeChain` facts on
concrete stores. -/
def chainCheck (c : CC) : Nat → List Nat → Bool
  | h, [] => h == 0
  | h, x :: l => (h == x) && (h != 0) && decide (h < c.capacity_) &&
      (c.type h == FREE) && chainCheck c (c.get_val h) l

theorem freeChain_of_check {c : CC} : ∀ {h : Nat} {l : List Nat},
    chainCheck c h l = true → FreeChain c h l := by
  intro h l
  induction l generalizing h with
  | nil =>
    intro hc
    have : h = 0 := by simpa [chainCheck] using hc
    rw [this]
    exact FreeChain.nil
  | cons x l ih =>
    intro hc
    simp only [chainCheck, Bool.and_eq_true, beq_iff_eq, bne_iff_ne, decide_eq_true_eq] at hc
    obtain ⟨⟨⟨⟨hx, h0⟩, hlt⟩, hfree⟩, hrest⟩ := hc
    rw [← hx]
    exact freeChain_cons h0 hlt hfree (ih hrest)

/-- Inserted elements of a valid `ins` sequence satisfy the tag-bit-clear
contract. -/
theorem validOps_ins_clean (p : Increment_policy) :
    ∀ (ts : List Elem) (c : CC), validOps p c (List.map Op.ins ts) = true →
      ∀ t ∈ ts, t.word < mask_type := by
  intro ts
  induction ts with
  | nil =>
    intro c _ t htm
    cases htm
  | cons t ts ih =>
    intro c hv u hu
    rw [List.map_cons] at hv
    obtain ⟨hv1, hv2⟩ := validOps_cons.mp hv
    rcases List.mem_cons.mp hu with h | h
    · subst h
      exact (validOp_ins_iff.mp hv1).1
    · exact ih _ hv2 u h

/-- While the free list is long enough, successive insertions pop and
return its entries in order. -/
theorem insertList_chain (p : Increment_policy) :
    ∀ (ts : List Elem) (c : CC) (l : List Nat),
      Inv c → FreeChain c c.free_list l → (∀ t ∈ ts, t.word < mask_type) →
      ts.length ≤ l.length →
      (c.insertList p ts).2 = l.take ts.length := by
  intro ts
  induction ts with
  | nil =>
    intro c l _ _ _ _
    rfl
  | cons t ts ih =>
    intro c l hI hfc hts hlen
    cases l with
    | nil => simp at hlen
    | cons x l2 =>
      obtain ⟨e1, e2, e3, e4, e5, e6, e7, e8, e9, e10⟩ :=
        emplace_pop_spec p c t hI (hts t (List.mem_cons_self _ _)) hfc
      have hunfold : c.insertList p (t :: ts) =
          (((c.insert p t).1.insertList p ts).1,
            (c.insert p t).2 :: ((c.insert p t).1.insertList p ts).2) := rfl
      rw [hunfold]
      show (c.insert p t).2 :: ((c.insert p t).1.insertList p ts).2 =
        List.take (ts.length + 1) (x :: l2)
      rw [List.take_succ_cons]
      have hih := ih (c.insert p t).1 l2 e5 e6
        (fun u hu => hts u (List.mem_cons_of_mem _ hu)) (by simpa using hlen)
      rw [show (c.insert p t).2 = (c.emplace p t).2 from rfl, e1, hih]

/-- C1: for every sequence of valid insert/emplace/erase operations in
which erase is only applied to a currently-live handle, a handle returned
by `insert` resolves via `operator[]` to the value constructed at
insertion, and stays tagged `USED`, until that specific handle is erased —
including across insertions that trigger `allocate_new_block` and grow the
buffer. -/
theorem claim_C1 (p : Increment_policy) (c : CC) (t : Elem) (ops : List Op)
    (hp : p.ok) (hI : Inv c) (ht : t.word < mask_type)
    (hgrow : c.free_list = 0 → c.capacity_ + c.block_size < mask_type)
    (hops : validOps p (c.insert p t).1 ops = true)
    (hnot : Op.del (c.insert p t).2 ∉ ops) :
    (run p (c.insert p t).1 ops).get (c.insert p t).2 = t ∧
    (run p (c.insert p t).1 ops).type (c.insert p t).2 = USED := by
  obtain ⟨e1, e2, e3, e4, e5, e6, e7, e8⟩ := emplace_spec p c t hp hI ht hgrow
  obtain ⟨_, pres⟩ := run_preserves p hp ops (c.insert p t).1 e1 hops
  have htype : (c.insert p t).1.type (c.insert p t).2 = USED := by
    unfold type
    show static_type ((c.emplace p t).1.get (c.emplace p t).2) = USED
    rw [e4]
    exact static_type_of_lt ht
  obtain ⟨g1, g2, g3⟩ := pres (c.insert p t).2 e2 e3 htype hnot
  refine ⟨?_, g2⟩
  rw [g1]
  exact e4

/-- C1 witness: on a fresh store with first block size 2, insert `⟨5,7⟩`
(handle 1), then two more insertions (the first triggers a block
allocation) and one erase of another handle; handle 1 still resolves to
`⟨5,7⟩`. -/
theorem claim_C1_witness :
    validOps polC ((init polC).insert polC ⟨5, 7⟩).1
      [Op.ins ⟨1, 1⟩, Op.ins ⟨2, 2⟩, Op.del 2] = true ∧
    Op.del ((init polC).insert polC ⟨5, 7⟩).2 ∉
      [Op.ins ⟨1, 1⟩, Op.ins ⟨2, 2⟩, Op.del 2] ∧
    (run polC ((init polC).insert polC ⟨5, 7⟩).1
      [Op.ins ⟨1, 1⟩, Op.ins ⟨2, 2⟩, Op.del 2]).get
        ((init polC).insert polC ⟨5, 7⟩).2 = ⟨5, 7⟩ :=
  ⟨by decide, by decide,
    (claim_C1 polC (init polC) ⟨5, 7⟩ [Op.ins ⟨1, 1⟩, Op.ins ⟨2, 2⟩, Op.del 2]
      polC_ok (inv_init polC polC_ok) (by decide) (by decide) (by decide) (by decide)).1⟩

/-- C2: on every store satisfying the invariant, the invariant worded as in
the spec — every index of `[1, capacity_)` tagged exactly one of LIVE or
FREE, and the free list visiting every FREE index exactly once, ending at
0 — holds and is preserved by `insert`, `emplace`, `erase`, `clear` and
`allocate_new_block`. -/
theorem claim_C2 (p : Increment_policy) (c : CC) (t : Elem) (x : Nat)
    (hp : p.ok) (hI : Inv c) (ht : t.word < mask_type)
    (hgrow : c.capacity_ + c.block_size < mask_type)
    (hx0 : x ≠ 0) (hxc : x < c.capacity_) (hxused : c.type x = USED) :
    StoreInv c ∧
    StoreInv (c.insert p t).1 ∧
    StoreInv (c.emplace p t).1 ∧
    StoreInv (c.erase x) ∧
    StoreInv (c.allocate_new_block p) ∧
    StoreInv (clear p c) := by
  have hgrow2 : c.free_list = 0 → c.capacity_ + c.block_size < mask_type := fun _ => hgrow
  obtain ⟨e1, _⟩ := emplace_spec p c t hp hI ht hgrow2
  obtain ⟨f1, _⟩ := erase_spec c x hI hx0 hxc hxused
  obtain ⟨l, hfc, -, -⟩ := hI.free_ok
  obtain ⟨a1, _⟩ := allocate_inv p c hp hI hgrow hfc
  exact ⟨storeInv_of_inv hI, storeInv_of_inv e1, storeInv_of_inv e1, storeInv_of_inv f1,
    storeInv_of_inv a1, storeInv_of_inv (inv_init p hp)⟩

/-- C2 witness: concrete store holding one element at handle 1, with the
witnessed conjunct being invariant preservation by `erase 1`. -/
theorem claim_C2_witness :
    ((init polC).insert polC ⟨3, 3⟩).1.type 1 = USED ∧
    StoreInv (((init polC).insert polC ⟨3, 3⟩).1.erase 1) :=
  ⟨by decide,
    (claim_C2 polC ((init polC).insert polC ⟨3, 3⟩).1 ⟨4, 4⟩ 1 polC_ok
      (emplace_spec polC (init polC) ⟨3, 3⟩ polC_ok (inv_init polC polC_ok)
        (by decide) (by decide)).1
      (by decide) (by decide) (by decide) (by decide) (by decide)).2.2.2.1⟩

/-- C3: `reserve` never changes the store — its growth code is commented
out in the source — so in particular `reserve 5` on a fresh
first-block-size-2 store leaves `capacity()` at 2, contradicting the
claimed postcondition `capacity() ≥ n`. -/
theorem claim_C3 (c : CC) (n : Nat) :
    c.reserve n = c ∧ ((init polC).reserve 5).capacity_ < 5 := by
  constructor
  · unfold reserve
    split <;> rfl
  · decide

/-- C4: free-list reuse round trip — insert (handle h), erase h, insert
again returns h, under the claim's proviso that the free list is otherwise
empty at the second insert. -/
theorem claim_C4 (p : Increment_policy) (c : CC) (t t2 : Elem)
    (hp : p.ok) (hI : Inv c) (ht : t.word < mask_type)
    (hgrow : c.free_list = 0 → c.capacity_ + c.block_size < mask_type)
    (_hproviso : (c.insert p t).1.free_list = 0) :
    (((c.insert p t).1.erase (c.insert p t).2).insert p t2).2 = (c.insert p t).2 := by
  obtain ⟨e1, e2, e3, e4, e5, e6, e7, e8⟩ := emplace_spec p c t hp hI ht hgrow
  have h2 : ((c.insert p t).1.erase (c.insert p t).2).free_list = (c.insert p t).2 := rfl
  have hne : ¬((c.insert p t).1.erase (c.insert p t).2).free_list = 0 := by
    rw [h2]
    exact e2
  show (((c.insert p t).1.erase (c.insert p t).2).emplace p t2).2 = (c.insert p t).2
  rw [emplace_eq_pop p _ t2 hne, emplace_aux_eq]
  exact h2

/-- C4 witness: fresh store of first block size 2: insert returns handle 1
and exhausts the free list; erasing 1 and inserting again returns 1. -/
theorem claim_C4_witness :
    ((init polC).insert polC ⟨5, 7⟩).1.free_list = 0 ∧
    ((((init polC).insert polC ⟨5, 7⟩).1.erase
        ((init polC).insert polC ⟨5, 7⟩).2).insert polC ⟨6, 8⟩).2 =
      ((init polC).insert polC ⟨5, 7⟩).2 :=
  ⟨by decide,
    claim_C4 polC (init polC) ⟨5, 7⟩ ⟨6, 8⟩ polC_ok (inv_init polC polC_ok)
      (by decide) (by decide) (by decide)⟩

/-- C5: for every store built from `init` by a sequence of valid inserts
with no erases, traversing `[begin(), end())` visits exactly the live
handles, in strictly ascending order, which is exactly the order the
handles were issued. -/
theorem claim_C5 (p : Increment_policy) (ts : List Elem) (hp : p.ok)
    (hops : validOps p (init p) (List.map Op.ins ts) = true) :
    iterSeq ((init p).insertList p ts).1 = ((init p).insertList p ts).2 ∧
    ((init p).insertList p ts).2 = List.range' 1 ts.length ∧
    List.Pairwise (· < ·) (iterSeq ((init p).insertList p ts).1) := by
  have hclean : ∀ t ∈ ts, t.word < mask_type := validOps_ins_clean p ts (init p) hops
  obtain ⟨r1, r2⟩ := seq_run p hp ts [] (init p) (seqInv_init p hp) hops
  have r1' : ((init p).insertList p ts).2 = List.range' 1 ts.length := by
    simpa using r1
  rw [List.nil_append] at r2
  have hiter : iterSeq ((init p).insertList p ts).1 = List.range' 1 ts.length :=
    iterSeq_of_seq r2 hclean
  refine ⟨by rw [hiter, r1'], r1', ?_⟩
  rw [hiter]
  exact List.pairwise_lt_range' 1 ts.length

/-- C5 witness: three inserts on a fresh store (the second triggers
growth); iteration yields `[1, 2, 3]`, the issue order. -/
theorem claim_C5_witness :
    validOps polC (init polC)
      (List.map Op.ins [(⟨1, 1⟩ : Elem), ⟨2, 2⟩, ⟨3, 3⟩]) = true ∧
    iterSeq ((init polC).insertList polC [⟨1, 1⟩, ⟨2, 2⟩, ⟨3, 3⟩]).1 =
      ((init polC).insertList polC [⟨1, 1⟩, ⟨2, 2⟩, ⟨3, 3⟩]).2 ∧
    ((init polC).insertList polC [⟨1, 1⟩, ⟨2, 2⟩, ⟨3, 3⟩]).2 = List.range' 1 3 :=
  ⟨by decide,
    (claim_C5 polC [⟨1, 1⟩, ⟨2, 2⟩, ⟨3, 3⟩] polC_ok (by decide)).1,
    (claim_C5 polC [⟨1, 1⟩, ⟨2, 2⟩, ⟨3, 3⟩] polC_ok (by decide)).2.1⟩

/-- C6: `allocate_new_block` from capacity C links the new indices so that
the free list becomes `C, C+1, ..., C+block_size-1` followed by the old
chain (the indices above C are pushed in descending order, C pushed last
and so the new head), and successive insertions with no interleaved erases
return the new indices in ascending order starting from C. -/
theorem claim_C6 (p : Increment_policy) (c : CC) (l : List Nat) (ts : List Elem)
    (hp : p.ok) (hI : Inv c) (hfc : FreeChain c c.free_list l)
    (hgrow : c.capacity_ + c.block_size < mask_type)
    (hts : ∀ t ∈ ts, t.word < mask_type) (hlen : ts.length ≤ c.block_size) :
    (c.allocate_new_block p).free_list = c.capacity_ ∧
    FreeChain (c.allocate_new_block p) (c.allocate_new_block p).free_list
      (List.range' c.capacity_ c.block_size ++ l) ∧
    ((c.allocate_new_block p).insertList p ts).2 = List.range' c.capacity_ ts.length := by
  obtain ⟨aI, afl, achain, acap, aget, asize⟩ := allocate_inv p c hp hI hgrow hfc
  have achain' : FreeChain (c.allocate_new_block p) (c.allocate_new_block p).free_list
      (List.range' c.capacity_ c.block_size ++ l) := by
    rw [afl]
    exact achain
  refine ⟨afl, achain', ?_⟩
  have htake := insertList_chain p ts (c.allocate_new_block p) _ aI achain' hts
    (by rw [List.length_append, List.length_range']; omega)
  rw [htake]
  have hsplit : List.range' c.capacity_ c.block_size =
      List.range' c.capacity_ ts.length ++
        List.range' (c.capacity_ + ts.length) (c.block_size - ts.length) := by
    rw [List.range'_append_1]
    congr 1
    omega
  rw [hsplit, List.append_assoc]
  apply List.take_left'
  rw [List.length_range']

/-- C6 witness: fresh store (capacity 2, block size 2, free chain `[1]`);
allocating a new block makes the free list `2 → 3 → 1` with head 2, and
two subsequent insertions return handles 2 and 3. -/
theorem claim_C6_witness :
    chainCheck (init polC) (init polC).free_list [1] = true ∧
    ((init polC).allocate_new_block polC).free_list = (init polC).capacity_ ∧
    (((init polC).allocate_new_block polC).insertList polC [⟨1, 1⟩, ⟨2, 2⟩]).2 =
      List.range' (init polC).capacity_ 2 :=
  ⟨by decide,
    (claim_C6 polC (init polC) [1] [⟨1, 1⟩, ⟨2, 2⟩] polC_ok (inv_init polC polC_ok)
      (freeChain_of_check (by decide)) (by decide) (by decide) (by decide)).1,
    (claim_C6 polC (init polC) [1] [⟨1, 1⟩, ⟨2, 2⟩] polC_ok (inv_init polC polC_ok)
      (freeChain_of_check (by decide)) (by decide) (by decide) (by decide)).2.2⟩

/-- C7: when the backing allocation fails during growth, the source does
not surface any error and the prior state is not intact: `capacity_` has
already been incremented and `all_items` replaced by the NULL result of
`realloc` before the failure could be observed, and the subsequent free
list write violates `operator[]`'s assertion.  Evaluated at a concrete
store (fresh first-block-size-2 store after one insert, free list empty):
the state at the failure point has `capacity_ = 4` (not the prior 2) and
an empty buffer. -/
theorem claim_C7 :
    allocate_new_block_alloc polC false ((init polC).insert polC ⟨5, 7⟩).1 =
      Except.error
        { capacity_ := 4, size_ := 1, block_size := 2, free_list := 0, all_items := [] } ∧
    ((init polC).insert polC ⟨5, 7⟩).1.capacity_ = 2 := by
  constructor
  · rfl
  · decide

/-- C8: for every n, n valid insertions on a fresh store with no erasures
return pairwise distinct handles, none of which is 0 (the retired
sentinel). -/
theorem claim_C8 (p : Increment_policy) (ts : List Elem) (hp : p.ok)
    (hops : validOps p (init p) (List.map Op.ins ts) = true) :
    ((init p).insertList p ts).2.Nodup ∧ 0 ∉ ((init p).insertList p ts).2 := by
  obtain ⟨r1, _⟩ := seq_run p hp ts [] (init p) (seqInv_init p hp) hops
  have r1' : ((init p).insertList p ts).2 = List.range' 1 ts.length := by
    simpa using r1
  rw [r1']
  refine ⟨List.nodup_range' _ _, ?_⟩
  rw [List.mem_range'_1]
  omega

/-- C8 witness: three inserts on a fresh store give handles `[1, 2, 3]`,
pairwise distinct and non-zero. -/
theorem claim_C8_witness :
    validOps polC (init polC)
      (List.map Op.ins [(⟨1, 1⟩ : Elem), ⟨2, 2⟩, ⟨3, 3⟩]) = true ∧
    ((init polC).insertList polC [⟨1, 1⟩, ⟨2, 2⟩, ⟨3, 3⟩]).2.Nodup ∧
    0 ∉ ((init polC).insertList polC [⟨1, 1⟩, ⟨2, 2⟩, ⟨3, 3⟩]).2 :=
  ⟨by decide,
    (claim_C8 polC [⟨1, 1⟩, ⟨2, 2⟩, ⟨3, 3⟩] polC_ok (by decide)).1,
    (claim_C8 polC [⟨1, 1⟩, ⟨2, 2⟩, ⟨3, 3⟩] polC_ok (by decide)).2⟩

/-- C9: after any valid sequence of insert/erase operations, `size()`
equals the number of currently live user handles; `clear()` resets the
store to the state produced by `init` — `size() = 0`, handle 0 re-reserved
as `USED` — and a subsequent insert behaves exactly as on a fresh store. -/
theorem claim_C9 (p : Increment_policy) (c : CC) (ops : List Op) (t : Elem)
    (hp : p.ok) (hI : Inv c) (hops : validOps p c ops = true) :
    size (run p c ops) = usedCount (run p c ops) ∧
    size (clear p c) = 0 ∧
    (clear p c).type 0 = USED ∧
    clear p c = init p ∧
    (clear p c).insert p t = (init p).insert p t := by
  refine ⟨(run_preserves p hp ops c hI hops).1.size_eq, rfl, ?_, rfl, rfl⟩
  exact (inv_init p hp).used0

/-- C9 witness: run `insert ⟨1,1⟩, insert ⟨2,2⟩, erase 1` on a fresh store;
`size()` is 1, equal to the number of live user handles, and `clear`
resets to the fresh state. -/
theorem claim_C9_witness :
    validOps polC (init polC) [Op.ins ⟨1, 1⟩, Op.ins ⟨2, 2⟩, Op.del 1] = true ∧
    size (run polC (init polC) [Op.ins ⟨1, 1⟩, Op.ins ⟨2, 2⟩, Op.del 1]) =
      usedCount (run polC (init polC) [Op.ins ⟨1, 1⟩, Op.ins ⟨2, 2⟩, Op.del 1]) ∧
    size (clear polC (init polC)) = 0 :=
  ⟨by decide,
    (claim_C9 polC (init polC) [Op.ins ⟨1, 1⟩, Op.ins ⟨2, 2⟩, Op.del 1] ⟨9, 9⟩
      polC_ok (inv_init polC polC_ok) (by decide)).1,
    (claim_C9 polC (init polC) [Op.ins ⟨1, 1⟩, Op.ins ⟨2, 2⟩, Op.del 1] ⟨9, 9⟩
      polC_ok (inv_init polC polC_ok) (by decide)).2.1⟩

end Compact_container_with_index_2

end CGALStore

namespace CGALDistance

/-- A point of `K::Point_3` over an exact field kernel, with rational
Cartesian coordinates. -/
structure Point_3 where
  x : ℚ
  y : ℚ
  z : ℚ

/-- A vector of `K::Vector_3`. -/
structure Vector_3 where
  x : ℚ
  y : ℚ
  z : ℚ

/-- `K::Ray_3`: `start()` and `direction().vector()`. -/
structure Ray_3 where
  start : Point_3
  direction_vector : Vector_3

/-- `K::Plane_3` through the two accessors the distance code uses:
`point()` and `orthogonal_vector()`. -/
structure Plane_3 where
  point : Point_3
  orthogonal_vector : Vector_3

/-- `K::Construct_vector_3`: the vector from `p` to `q`. -/
def construct_vector (p q : Point_3) : Vector_3 :=
  ⟨q.x - p.x, q.y - p.y, q.z - p.z⟩

/-- Modelled from the spec: `wdot` lives in
`CGAL/internal/squared_distance_utils_3.h`, which is not under `src/`; the
spec treats the numeric helpers as external pure computations (spec section
1), and for a Cartesian kernel `wdot` is the dot product. -/
def wdot (u v : Vector_3) : ℚ :=
  u.x * v.x + u.y * v.y + u.z * v.z

/-- Modelled from the spec: `squared_distance_to_plane` lives in
`CGAL/internal/squared_distance_utils_3.h`, which is not under `src/`; the
spec treats the numeric helpers as external pure computations (spec section
1).  It is the squared distance of a point at offset `v` from the plane
with normal `n`. -/
def squared_distance_to_plane (n v : Vector_3) : ℚ :=
  (wdot n v) ^ 2 / (wdot n n)

/-- `CGAL_NTS sign`, as the integer sign in {-1, 0, 1}. -/
def sign (q : ℚ) : Int :=
  if q < 0 then -1 else if q = 0 then 0 else 1

/-- `internal::squared_distance(ray, plane, k)` (lines 29-64): the ray-first
computation.  The `switch` on `sign(sdm_rs2pp)` has cases `-1`, `0`
(merged with `default`) and `1`. -/
def internal_squared_distance_ray_plane (ray : Ray_3) (plane : Plane_3) : ℚ :=
  let start := ray.start
  let planepoint := plane.point
  let start_min_pp := construct_vector planepoint start
  let end_min_pp := ray.direction_vector
  let normal := plane.orthogonal_vector
  let sdm_rs2pp := wdot normal start_min_pp
  let sdm_re2pp := wdot normal end_min_pp
  if sign sdm_rs2pp = -1 then
    (if sdm_re2pp > 0 then 0 else squared_distance_to_plane normal start_min_pp)
  else if sign sdm_rs2pp = 1 then
    (if sdm_re2pp < 0 then 0 else squared_distance_to_plane normal start_min_pp)
  else 0

/-- `internal::squared_distance(plane, ray, k)` (lines 66-73): delegates to
the ray-first overload. -/
def internal_squared_distance_plane_ray (plane : Plane_3) (ray : Ray_3) : ℚ :=
  internal_squared_distance_ray_plane ray plane

/-- `CGAL::squared_distance(ray, plane)` (lines 77-84). -/
def squared_distance_ray_plane (ray : Ray_3) (plane : Plane_3) : ℚ :=
  internal_squared_distance_ray_plane ray plane

/-- `CGAL::squared_distance(plane, ray)` (lines 86-93): calls
`internal::squared_distance(ray, plane, K())` ray-first. -/
def squared_distance_plane_ray (plane : Plane_3) (ray : Ray_3) : ℚ :=
  internal_squared_distance_ray_plane ray plane

/-- C10: argument-order symmetry of the ray/plane squared distance: the
plane-first overloads (both the `internal` one and the top-level
`CGAL::squared_distance`) delegate to the same ray-first computation, so
`squared_distance(p, r) = squared_distance(r, p)` for every ray and
plane. -/
theorem claim_C10 (ray : Ray_3) (plane : Plane_3) :
    squared_distance_plane_ray plane ray = squared_distance_ray_plane ray plane ∧
    internal_squared_distance_plane_ray plane ray =
      internal_squared_distance_ray_plane ray plane :=
  ⟨rfl, rfl⟩

end CGALDistance
